import Mathlib

/-!
# Guest memory accessors of `include/mem.h`

A shallow embedding of the raw (`host_*`) and physical (`phys_*`) accessors and of the
real-mode address conversions declared in `include/mem.h`.

* Machine integers are natural numbers; every conversion to a fixed-width C type is an
  explicit `% 2 ^ w`.
* Host memory is a map from host addresses to bytes.  A `HostPt` is the address itself, so
  `MemBase + addr` is ordinary addition.
* `size_t` is `bits` wide, with `bits` a parameter of the `phys_*` accessors.
* `mem_readd` and `mem_writed` are parameters of the interrupt vector accessors.
* The A20 gate and the page allocator, which the header only declares, are modelled from
  the specification.
-/

namespace DosboxMem

/-! ## Host memory -/

/-- Host memory: one `uint8_t` per host address. -/
abbrev HostMem := Nat → Fin 256

/-- Conversion of a value to `uint8_t`, as a memory cell. -/
def toByte (val : Nat) : Fin 256 := ⟨val % 256, Nat.mod_lt _ (by decide)⟩

/-! ## Raw accessors, byte-at-a-time branch (`!defined(C_UNALIGNED_MEMORY)`) -/

/-- Source: `host_readb`: `return *off;` -/
def host_readb (m : HostMem) (off : Nat) : Nat := (m off).val

/-- Source: `host_writeb`: `*off = val;` with `val` a `uint8_t`. -/
def host_writeb (m : HostMem) (off : Nat) (val : Nat) : HostMem :=
  Function.update m off (toByte val)

/-- Source: `host_readw`: `(uint16_t)host_readb(off) + ((uint16_t)host_readb(off+1) << 8)`,
returned as `uint16_t`. -/
def host_readw (m : HostMem) (off : Nat) : Nat :=
  (host_readb m off + (host_readb m (off + 1) <<< 8)) % 2 ^ 16

/-- Source: `host_readd`: `(uint32_t)host_readw(off) + ((uint32_t)host_readw(off+2) << 16)` in
`uint32_t` arithmetic. -/
def host_readd (m : HostMem) (off : Nat) : Nat :=
  (host_readw m off + (host_readw m (off + 2) <<< 16) % 2 ^ 32) % 2 ^ 32

/-- Source: `host_readq`: `(uint64_t)host_readd(off) + ((uint64_t)host_readd(off+4) << 32)` in
`uint64_t` arithmetic. -/
def host_readq (m : HostMem) (off : Nat) : Nat :=
  (host_readd m off + (host_readd m (off + 4) <<< 32) % 2 ^ 64) % 2 ^ 64

/-- Source: `host_writew`: low byte at `off`, then `(uint8_t)(val >> 8)` at `off+1`. -/
def host_writew (m : HostMem) (off : Nat) (val : Nat) : HostMem :=
  host_writeb (host_writeb m off (val % 2 ^ 8)) (off + 1) ((val >>> 8) % 2 ^ 8)

/-- Source: `host_writed`: `(uint16_t)(val)` at `off`, then `(uint16_t)(val >> 16)` at `off+2`. -/
def host_writed (m : HostMem) (off : Nat) (val : Nat) : HostMem :=
  host_writew (host_writew m off (val % 2 ^ 16)) (off + 2) ((val >>> 16) % 2 ^ 16)

/-- Source: `host_writeq`: `(uint32_t)(val)` at `off`, then `(uint32_t)(val >> 32)` at `off+4`. -/
def host_writeq (m : HostMem) (off : Nat) (val : Nat) : HostMem :=
  host_writed (host_writed m off (val % 2 ^ 32)) (off + 4) ((val >>> 32) % 2 ^ 32)

/-! ## Raw accessors, typed branches

The other two branches of the header access memory through `uint16_t`/`uint32_t`/`uint64_t`
pointers.  Such an access moves the bytes at `off`, `off+1`, ... in the byte order of the
host. -/

/-- Byte order of the host. -/
inductive Endian where
  | little
  | big
  deriving DecidableEq, Repr

/-- The `n` bytes of memory at `off`, `off+1`, ..., in address order. -/
def loadBytes (m : HostMem) (off : Nat) : Nat → List Nat
  | 0 => []
  | n + 1 => host_readb m off :: loadBytes m (off + 1) n

/-- Stores a list of bytes at `off`, `off+1`, ..., in address order. -/
def storeBytes (m : HostMem) (off : Nat) : List Nat → HostMem
  | [] => m
  | b :: bs => storeBytes (host_writeb m off b) (off + 1) bs

/-- The value of a list of bytes, least significant byte first. -/
def ofLE : List Nat → Nat
  | [] => 0
  | b :: bs => b + 256 * ofLE bs

/-- The low `n` bytes of `v`, least significant byte first. -/
def leBytes : Nat → Nat → List Nat
  | 0, _ => []
  | n + 1, v => v % 256 :: leBytes n (v / 256)

/-- Source: `*(const uintN_t *)off` for an `n`-byte unsigned type on a host of byte order `e`. -/
def typed_load (e : Endian) (n : Nat) (m : HostMem) (off : Nat) : Nat :=
  match e with
  | .little => ofLE (loadBytes m off n)
  | .big => ofLE (loadBytes m off n).reverse

/-- Source: `*(uintN_t *)off = val` for an `n`-byte unsigned type on a host of byte order `e`. -/
def typed_store (e : Endian) (n : Nat) (m : HostMem) (off val : Nat) : HostMem :=
  match e with
  | .little => storeBytes m off (leBytes n val)
  | .big => storeBytes m off (leBytes n val).reverse

/-- Modelled from the spec: `__builtin_bswap16/32/64` are compiler builtins that the header
uses without defining them ("byte-swap on access"); `bswap n` reverses the order of the `n`
bytes of its operand. -/
def bswap (n : Nat) (x : Nat) : Nat := ofLE (leBytes n x).reverse

/-- Modelled from the spec: `le16toh`/`le32toh`/`le64toh` and `htole16`/`htole32`/`htole64`
come from `byteorder.h` or the system's `endian.h`, not from this header; they convert
between little-endian and host byte order: the identity on a little-endian host and a byte
swap on a big-endian one. -/
def letoh (e : Endian) (n : Nat) (x : Nat) : Nat :=
  match e with
  | .little => x
  | .big => bswap n x

/-- Branch `WORDS_BIGENDIAN && __GNUC__ >= 4.3`: typed access with `__builtin_bswap*`.  The
host is big-endian.  The branch defines no `host_readq`. -/
def BswapBuild.host_readw (m : HostMem) (off : Nat) : Nat :=
  bswap 2 (typed_load .big 2 m off)

/-- Source: `__builtin_bswap32(*(uint32_t *)off)`. -/
def BswapBuild.host_readd (m : HostMem) (off : Nat) : Nat :=
  bswap 4 (typed_load .big 4 m off)

/-- Source: `*(uint16_t *)off = __builtin_bswap16(val)`. -/
def BswapBuild.host_writew (m : HostMem) (off val : Nat) : HostMem :=
  typed_store .big 2 m off (bswap 2 val)

/-- Source: `*(uint32_t *)off = __builtin_bswap32(val)`. -/
def BswapBuild.host_writed (m : HostMem) (off val : Nat) : HostMem :=
  typed_store .big 4 m off (bswap 4 val)

/-- Source: `*(uint64_t *)off = __builtin_bswap64(val)`. -/
def BswapBuild.host_writeq (m : HostMem) (off val : Nat) : HostMem :=
  typed_store .big 8 m off (bswap 8 val)

/-- Branch `#else` (`C_UNALIGNED_MEMORY` defined), on a host of byte order `e`:
`le16toh((*(const uint16_t *)off))`. -/
def TypedBuild.host_readw (e : Endian) (m : HostMem) (off : Nat) : Nat :=
  letoh e 2 (typed_load e 2 m off)

/-- Source: `le32toh((*(const uint32_t *)off))`. -/
def TypedBuild.host_readd (e : Endian) (m : HostMem) (off : Nat) : Nat :=
  letoh e 4 (typed_load e 4 m off)

/-- Source: `le64toh((*(const uint64_t *)off))`. -/
def TypedBuild.host_readq (e : Endian) (m : HostMem) (off : Nat) : Nat :=
  letoh e 8 (typed_load e 8 m off)

/-- Source: `*(uint16_t *)(off) = htole16(val)`. -/
def TypedBuild.host_writew (e : Endian) (m : HostMem) (off val : Nat) : HostMem :=
  typed_store e 2 m off (letoh e 2 val)

/-- Source: `*(uint32_t *)(off) = htole32(val)`. -/
def TypedBuild.host_writed (e : Endian) (m : HostMem) (off val : Nat) : HostMem :=
  typed_store e 4 m off (letoh e 4 val)

/-- Source: `*(uint64_t *)(off) = htole64(val)`. -/
def TypedBuild.host_writeq (e : Endian) (m : HostMem) (off val : Nat) : HostMem :=
  typed_store e 8 m off (letoh e 8 val)

/-- The three branches of the preprocessor conditional around the raw accessors. -/
inductive HostBuild where
  /-- Source: `WORDS_BIGENDIAN` with GCC 4.3 or later. -/
  | bswap
  /-- Source: `!defined(C_UNALIGNED_MEMORY)`. -/
  | bytewise
  /-- Otherwise, on a host of the given byte order. -/
  | typed (e : Endian)
  deriving DecidableEq, Repr

/-- The multi-byte raw accessors a build of the header provides. -/
structure HostAccessors where
  host_readw : HostMem → Nat → Nat
  host_readd : HostMem → Nat → Nat
  /-- Absent from the `bswap` branch. -/
  host_readq : Option (HostMem → Nat → Nat)
  host_writew : HostMem → Nat → Nat → HostMem
  host_writed : HostMem → Nat → Nat → HostMem
  host_writeq : HostMem → Nat → Nat → HostMem

/-- Which definitions each branch selects. -/
def hostAccessors : HostBuild → HostAccessors
  | .bswap =>
    { host_readw := BswapBuild.host_readw
      host_readd := BswapBuild.host_readd
      host_readq := none
      host_writew := BswapBuild.host_writew
      host_writed := BswapBuild.host_writed
      host_writeq := BswapBuild.host_writeq }
  | .bytewise =>
    { host_readw := DosboxMem.host_readw
      host_readd := DosboxMem.host_readd
      host_readq := some DosboxMem.host_readq
      host_writew := DosboxMem.host_writew
      host_writed := DosboxMem.host_writed
      host_writeq := DosboxMem.host_writeq }
  | .typed e =>
    { host_readw := TypedBuild.host_readw e
      host_readd := TypedBuild.host_readd e
      host_readq := some (TypedBuild.host_readq e)
      host_writew := TypedBuild.host_writew e
      host_writed := TypedBuild.host_writed e
      host_writeq := TypedBuild.host_writeq e }

/-! ## Physical accessors

`MemBase` and `MemSize` are globals of the emulator; together with the host memory they
form the state the `phys_*` accessors work on.  `addr` is a `PhysPt` (`uint32_t`); `size_t`
is at least as wide, so its conversion to `size_t` in the comparisons keeps its value. -/

/-- The arena globals and the host memory they point into. -/
structure MemState where
  /-- Host address of the first byte of guest RAM (`HostPt MemBase`). -/
  MemBase : Nat
  /-- Size of guest RAM in bytes (`size_t MemSize`). -/
  MemSize : Nat
  /-- Contents of host memory. -/
  mem : HostMem

/-- Subtraction `a - b` of `size_t` values on a host whose `size_t` has `bits` bits:
unsigned, wrapping modulo `2 ^ bits`. -/
def size_t_sub (bits a b : Nat) : Nat := (a + 2 ^ bits - b) % 2 ^ bits

/-- Source: `phys_writeb`: `if (addr < MemSize) host_writeb(MemBase+addr,val);` -/
def phys_writeb (s : MemState) (addr val : Nat) : MemState :=
  if addr < s.MemSize then { s with mem := host_writeb s.mem (s.MemBase + addr) val } else s

/-- Source: `phys_writew`: `if (addr < (MemSize-1u)) host_writew(MemBase+addr,val);` -/
def phys_writew (bits : Nat) (s : MemState) (addr val : Nat) : MemState :=
  if addr < size_t_sub bits s.MemSize 1 then
    { s with mem := host_writew s.mem (s.MemBase + addr) val }
  else s

/-- Source: `phys_writed`: `if (addr < (MemSize-3u)) host_writed(MemBase+addr,val);` -/
def phys_writed (bits : Nat) (s : MemState) (addr val : Nat) : MemState :=
  if addr < size_t_sub bits s.MemSize 3 then
    { s with mem := host_writed s.mem (s.MemBase + addr) val }
  else s

/-- Source: `phys_readb`: `if (addr < MemSize) return host_readb(MemBase+addr); else return 0xFF;` -/
def phys_readb (s : MemState) (addr : Nat) : Nat :=
  if addr < s.MemSize then host_readb s.mem (s.MemBase + addr) else 0xFF

/-- Source: `phys_readw`: `if (addr < (MemSize-1u)) return host_readw(MemBase+addr);
else return 0xFFFFu;` -/
def phys_readw (bits : Nat) (s : MemState) (addr : Nat) : Nat :=
  if addr < size_t_sub bits s.MemSize 1 then host_readw s.mem (s.MemBase + addr) else 0xFFFF

/-- Source: `phys_readd`: `if (addr < (MemSize-3u)) return host_readd(MemBase+addr);
else return 0xFFFFFFFFu;` -/
def phys_readd (bits : Nat) (s : MemState) (addr : Nat) : Nat :=
  if addr < size_t_sub bits s.MemSize 3 then host_readd s.mem (s.MemBase + addr)
  else 0xFFFFFFFF

/-! ### The accessors as a family indexed by the access width -/

/-- The access widths of the physical accessors: byte, word, doubleword. -/
inductive Width where
  | byte
  | word
  | dword
  deriving DecidableEq, Repr

/-- Number of bytes of an access. -/
def Width.bytes : Width → Nat
  | .byte => 1
  | .word => 2
  | .dword => 4

/-- The value the `phys_read*` of that width returns when its range check fails. -/
def Width.allOnes : Width → Nat
  | .byte => 0xFF
  | .word => 0xFFFF
  | .dword => 0xFFFFFFFF

/-- Source: `host_readb` / `host_readw` / `host_readd`, selected by width. -/
def host_read : Width → HostMem → Nat → Nat
  | .byte => host_readb
  | .word => host_readw
  | .dword => host_readd

/-- Source: `host_writeb` / `host_writew` / `host_writed`, selected by width. -/
def host_write : Width → HostMem → Nat → Nat → HostMem
  | .byte => host_writeb
  | .word => host_writew
  | .dword => host_writed

/-- Source: `phys_readb` / `phys_readw` / `phys_readd`, selected by width. -/
def phys_read (bits : Nat) : Width → MemState → Nat → Nat
  | .byte => phys_readb
  | .word => phys_readw bits
  | .dword => phys_readd bits

/-- Source: `phys_writeb` / `phys_writew` / `phys_writed`, selected by width. -/
def phys_write (bits : Nat) : Width → MemState → Nat → Nat → MemState
  | .byte => phys_writeb
  | .word => phys_writew bits
  | .dword => phys_writed bits

/-! ## Real-mode address conversions

`LinearPt` and `RealPt` are `uint32_t`; segments and offsets are `uint16_t`. -/

/-- Source: `PhysMake`: `((LinearPt)seg << 4U) + (LinearPt)off`. -/
def PhysMake (seg off : Nat) : Nat := ((seg <<< 4) % 2 ^ 32 + off) % 2 ^ 32

/-- Source: `RealSeg`: `(uint16_t)(pt >> 16U)`. -/
def RealSeg (pt : Nat) : Nat := (pt >>> 16) % 2 ^ 16

/-- Source: `RealOff`: `(uint16_t)(pt & 0xffffu)`. -/
def RealOff (pt : Nat) : Nat := (pt &&& 0xffff) % 2 ^ 16

/-- Source: `Real2Phys`: `((LinearPt)RealSeg(pt) << 4U) + (LinearPt)RealOff(pt)`. -/
def Real2Phys (pt : Nat) : Nat := ((RealSeg pt <<< 4) % 2 ^ 32 + RealOff pt) % 2 ^ 32

/-- Source: `RealMake`: `((RealPt)seg << 16U) + (RealPt)off`. -/
def RealMake (seg off : Nat) : Nat := ((seg <<< 16) % 2 ^ 32 + off) % 2 ^ 32

/-- Source: `PhysToReal416`:
`RealMake((uint16_t)((phys >> 4U) & 0xF000U),(uint16_t)(phys & 0xFFFFU))`. -/
def PhysToReal416 (phys : Nat) : Nat :=
  RealMake (((phys >>> 4) &&& 0xF000) % 2 ^ 16) ((phys &&& 0xFFFF) % 2 ^ 16)

/-- Source: `RealVecAddress`: `((unsigned int)vec << 2U)`. -/
def RealVecAddress (vec : Nat) : Nat := (vec <<< 2) % 2 ^ 32

/-- A memory whose every byte is `b`, for concrete evaluations. -/
def constMem (b : Nat) : HostMem := fun _ => toByte b

/-- A memory holding the bytes `EF CD AB 89 67 45 23 01` at addresses `0` to `7`, the
little-endian image of `0x0123456789ABCDEF`. -/
def qwordSample : HostMem :=
  storeBytes (constMem 0) 0 [0xEF, 0xCD, 0xAB, 0x89, 0x67, 0x45, 0x23, 0x01]

/-! ## Interrupt vector table access

`mem_readd` and `mem_writed` are declared in the header and defined with the paged memory
system; the vector accessors are embedded over an arbitrary implementation of the two. -/

/-- An implementation of `mem_readd` and `mem_writed` over a state `σ`.  A read returns the
value and the state after the read, since a page handler may act on reads. -/
structure MemModel (σ : Type) where
  /-- Source: `uint32_t mem_readd(const LinearPt address)`. -/
  mem_readd : σ → Nat → Nat × σ
  /-- Source: `void mem_writed(const LinearPt address,const uint32_t val)`. -/
  mem_writed : σ → Nat → Nat → σ

/-- Source: `RealGetVec`: `return mem_readd(RealVecAddress(vec));` -/
def RealGetVec {σ : Type} (M : MemModel σ) (s : σ) (vec : Nat) : Nat × σ :=
  M.mem_readd s (RealVecAddress vec)

/-- Source: `RealSetVec(vec, pt)`: `mem_writed(RealVecAddress(vec),pt);` -/
def RealSetVec {σ : Type} (M : MemModel σ) (s : σ) (vec pt : Nat) : σ :=
  M.mem_writed s (RealVecAddress vec) pt

/-- Source: `RealSetVec(vec, pt, old)`: `addr = RealVecAddress(vec); old = mem_readd(addr);
mem_writed(addr,pt);`.  Returns `old` and the state after the write. -/
def RealSetVecOld {σ : Type} (M : MemModel σ) (s : σ) (vec pt : Nat) : Nat × σ :=
  let addr := RealVecAddress vec
  let r := M.mem_readd s addr
  (r.1, M.mem_writed r.2 addr pt)

/-- One call of `mem_readd` or `mem_writed`. -/
inductive MemAccess where
  | readd (address : Nat)
  | writed (address val : Nat)
  deriving DecidableEq, Repr

/-- A memory model that records every call in order; reads return `f address`. -/
def traceModel (f : Nat → Nat) : MemModel (List MemAccess) where
  mem_readd := fun log a => (f a, log ++ [MemAccess.readd a])
  mem_writed := fun log a v => log ++ [MemAccess.writed a v]

/-- The plain store: `mem_readd`/`mem_writed` as `host_readd`/`host_writed` on a flat
memory, reads leaving the state alone. -/
def flatModel : MemModel HostMem where
  mem_readd := fun m a => (host_readd m a, m)
  mem_writed := fun m a v => host_writed m a v

/-- What it means for `mem_readd`/`mem_writed` to behave as a plain store: a read changes
nothing, a read after a write at the same address returns the 32-bit value written, and a
write leaves the doublewords that do not overlap it alone. -/
def PlainStore {σ : Type} (M : MemModel σ) : Prop :=
  (∀ s a, (M.mem_readd s a).2 = s) ∧
    (∀ s a v, v < 2 ^ 32 → (M.mem_readd (M.mem_writed s a v) a).1 = v) ∧
    (∀ s a b v, a + 4 ≤ b ∨ b + 4 ≤ a →
      (M.mem_readd (M.mem_writed s a v) b).1 = (M.mem_readd s b).1)

/-! ## A20 gate

`MEM_A20_Enabled` and `MEM_A20_Enable` are declared in the header; their definitions and
the address path that consults the gate are not part of it. -/

/-- Modelled from the spec: the A20 gate state, missing from the header, which only
declares `MEM_A20_Enabled` and `MEM_A20_Enable`: "process-wide single boolean",
"enabled/disabled". -/
structure A20Gate where
  enabled : Bool
  deriving DecidableEq, Repr

/-- Modelled from the spec: `MEM_A20_Enable(bool enabled)`, declared but not defined in the
header: the "explicit set operation", the only transition of the gate. -/
def MEM_A20_Enable (g : A20Gate) (enabled : Bool) : A20Gate :=
  { g with enabled := enabled }

/-- Modelled from the spec: `MEM_A20_Enabled()`, declared but not defined in the header:
the query, returning the current state of the gate together with the state it leaves
("the query operation must be side-effect-free"). -/
def MEM_A20_Enabled (g : A20Gate) : Bool × A20Gate :=
  (g.enabled, g)

/-- Modelled from the spec: address resolution on the wraparound-sensitive path, missing
from the header: "when disabled, any address resolution that would otherwise reference
bit 20 (the 0x100000 bit) instead aliases to the equivalent address with that bit
cleared"; when enabled the address is used as it is. -/
def A20_resolve (g : A20Gate) (addr : Nat) : Nat :=
  if g.enabled then addr else addr - (addr &&& 0x100000)

/-! ## Page allocator

The allocator entry points are declared in the header and defined elsewhere. -/

/-- Modelled from the spec: the allocator state, missing from the header: for every page
frame, by page number, its "owning handle (or free)" ("every page belongs to exactly one
handle or to the free set, never both"), and the handles that are live, that is allocated
and not yet released.  A live handle may own no frame. -/
structure PageAllocator where
  owner : List (Option Nat)
  live : List Nat
  deriving DecidableEq, Repr

/-- Modelled from the spec: `MEM_AllocatedPages(handle)`, declared but not defined in the
header: "count of frames owned by `handle`".  For a handle that is not live the query is an
error, `none` here: "unknown/invalid handle passed to release/reallocate/query" is
reported to the caller, and "`release(h)` followed by `allocated pages(h)` is an error, not
zero". -/
def MEM_AllocatedPages (A : PageAllocator) (handle : Nat) : Option Nat :=
  if handle ∈ A.live then some (A.owner.count (some handle)) else none

/-- Modelled from the spec: `MEM_FreeTotal()`, declared but not defined in the header: the
number of free page frames. -/
def MEM_FreeTotal (A : PageAllocator) : Nat :=
  A.owner.count none

/-- Modelled from the spec: `MEM_ReleasePages(handle)`, declared but not defined in the
header: "returns all frames owned by `handle` to the free pool"; "releasing an
already-released or unknown handle is an error condition, not a no-op", `none` here. -/
def MEM_ReleasePages (A : PageAllocator) (handle : Nat) : Option PageAllocator :=
  if handle ∈ A.live then
    some
      { owner := A.owner.map fun p => if p = some handle then none else p
        live := A.live.filter fun x => x ≠ handle }
  else none

/-- Returns the first `k` frames owned by `handle` to the free pool. -/
def releaseFrames (handle : Nat) : Nat → List (Option Nat) → List (Option Nat)
  | 0, ps => ps
  | _ + 1, [] => []
  | k + 1, p :: ps =>
    if p = some handle then none :: releaseFrames handle k ps
    else p :: releaseFrames handle (k + 1) ps

/-- Gives the first `k` free frames to `handle`. -/
def claimFrames (handle : Nat) : Nat → List (Option Nat) → List (Option Nat)
  | 0, ps => ps
  | _ + 1, [] => []
  | k + 1, p :: ps =>
    if p = none then some handle :: claimFrames handle k ps
    else p :: claimFrames handle (k + 1) ps

/-- Whether the first `n` frames of the list exist and are each free or owned by
`handle`. -/
def runFits (handle : Nat) : Nat → List (Option Nat) → Bool
  | 0, _ => true
  | _ + 1, [] => false
  | n + 1, p :: ps => (p = none ∨ p = some handle) && runFits handle n ps

/-- The first page number at which a run of `n` frames, each free or owned by `handle`,
starts. -/
def findRun (handle : Nat) (n : Nat) : List (Option Nat) → Option Nat
  | [] => if n = 0 then some 0 else none
  | p :: ps =>
    if runFits handle n (p :: ps) then some 0
    else (findRun handle n ps).map (· + 1)

/-- Makes `handle` the owner of the `n` frames from page `i` on, and frees every other
frame it owned. -/
def placeRun (handle : Nat) : Nat → Nat → List (Option Nat) → List (Option Nat)
  | _, _, [] => []
  | 0, 0, p :: ps => (if p = some handle then none else p) :: placeRun handle 0 0 ps
  | 0, n + 1, _ :: ps => some handle :: placeRun handle 0 n ps
  | i + 1, n, p :: ps => (if p = some handle then none else p) :: placeRun handle i n ps

/-- Modelled from the spec: `MEM_ReAllocatePages(handle, pages, sequence)`, declared but
not defined in the header: "grow or shrink an existing handle's frame set to exactly
`pages` frames, preserving the handle identity when possible; on failure (insufficient
free pages to grow), the handle and its original allocation must remain unchanged and the
operation reports failure rather than leaving a partial state".  A handle that is not live
is a reported failure ("unknown/invalid handle passed to release/reallocate/query").
Shrinking gives back the last frames of the handle and keeps the handle live, also at zero
frames.  Growing fails only when fewer frames are free than are missing; it takes the first
free frames, and with `sequence` it prefers the first run of `pages` frames that are free
or already the handle's, when there is one.  Returns the success flag, the handle and the
new state. -/
def MEM_ReAllocatePages (A : PageAllocator) (handle pages : Nat) (sequence : Bool) :
    Bool × Nat × PageAllocator :=
  if handle ∈ A.live then
    let cur := A.owner.count (some handle)
    if pages ≤ cur then
      (true, handle,
        { A with owner := (releaseFrames handle (cur - pages) A.owner.reverse).reverse })
    else if pages - cur ≤ MEM_FreeTotal A then
      if sequence then
        match findRun handle pages A.owner with
        | some i => (true, handle, { A with owner := placeRun handle i pages A.owner })
        | none => (true, handle, { A with owner := claimFrames handle (pages - cur) A.owner })
      else (true, handle, { A with owner := claimFrames handle (pages - cur) A.owner })
    else (false, handle, A)
  else (false, handle, A)

theorem host_readb_lt (m : HostMem) (off : Nat) : host_readb m off < 256 :=
  (m off).isLt

theorem host_readb_writeb_same (m : HostMem) (off val : Nat) :
    host_readb (host_writeb m off val) off = val % 256 := by
  simp [host_readb, host_writeb, toByte]

theorem host_readb_writeb_other (m : HostMem) (off off' val : Nat) (h : off' ≠ off) :
    host_readb (host_writeb m off val) off' = host_readb m off' := by
  simp [host_readb, host_writeb, Function.update_noteq h]

/-- Bytes of memory seen after a 16-bit store. -/
theorem host_readb_writew (m : HostMem) (off val a : Nat) :
    host_readb (host_writew m off val) a =
      if a = off then val % 256
      else if a = off + 1 then val / 256 % 256
      else host_readb m a := by
  unfold host_writew
  simp only [Nat.shiftRight_eq_div_pow]
  by_cases h1 : a = off + 1
  · subst h1
    rw [host_readb_writeb_same]
    have : off + 1 ≠ off := by omega
    simp only [this, if_false, if_true]
    omega
  · rw [host_readb_writeb_other _ _ _ _ h1]
    by_cases h0 : a = off
    · subst h0
      rw [host_readb_writeb_same]
      simp only [if_true]
      omega
    · rw [host_readb_writeb_other _ _ _ _ h0]
      simp only [h0, h1, if_false]

/-- Bytes of memory seen after a 32-bit store. -/
theorem host_readb_writed (m : HostMem) (off val a : Nat) :
    host_readb (host_writed m off val) a =
      if a = off then val % 256
      else if a = off + 1 then val / 2 ^ 8 % 256
      else if a = off + 2 then val / 2 ^ 16 % 256
      else if a = off + 3 then val / 2 ^ 24 % 256
      else host_readb m a := by
  unfold host_writed
  simp only [Nat.shiftRight_eq_div_pow, host_readb_writew]
  norm_num
  split_ifs <;> omega

/-- Bytes of memory seen after a 64-bit store. -/
theorem host_readb_writeq (m : HostMem) (off val a : Nat) :
    host_readb (host_writeq m off val) a =
      if a = off then val % 256
      else if a = off + 1 then val / 2 ^ 8 % 256
      else if a = off + 2 then val / 2 ^ 16 % 256
      else if a = off + 3 then val / 2 ^ 24 % 256
      else if a = off + 4 then val / 2 ^ 32 % 256
      else if a = off + 5 then val / 2 ^ 40 % 256
      else if a = off + 6 then val / 2 ^ 48 % 256
      else if a = off + 7 then val / 2 ^ 56 % 256
      else host_readb m a := by
  unfold host_writeq
  simp only [Nat.shiftRight_eq_div_pow, host_readb_writed]
  norm_num
  split_ifs <;> omega

/-- A 16-bit load is the little-endian value of its two bytes. -/
theorem host_readw_eq (m : HostMem) (off : Nat) :
    host_readw m off = host_readb m off + 2 ^ 8 * host_readb m (off + 1) := by
  have h0 := host_readb_lt m off
  have h1 := host_readb_lt m (off + 1)
  unfold host_readw
  simp only [Nat.shiftLeft_eq]
  omega

theorem host_readd_eq (m : HostMem) (off : Nat) :
    host_readd m off = host_readb m off + 2 ^ 8 * host_readb m (off + 1)
      + 2 ^ 16 * host_readb m (off + 2) + 2 ^ 24 * host_readb m (off + 3) := by
  have h0 := host_readb_lt m off
  have h1 := host_readb_lt m (off + 1)
  have h2 := host_readb_lt m (off + 2)
  have h3 := host_readb_lt m (off + 3)
  unfold host_readd
  simp only [Nat.shiftLeft_eq, host_readw_eq, Nat.add_assoc]
  norm_num
  omega

theorem host_readq_eq (m : HostMem) (off : Nat) :
    host_readq m off = host_readb m off + 2 ^ 8 * host_readb m (off + 1)
      + 2 ^ 16 * host_readb m (off + 2) + 2 ^ 24 * host_readb m (off + 3)
      + 2 ^ 32 * host_readb m (off + 4) + 2 ^ 40 * host_readb m (off + 5)
      + 2 ^ 48 * host_readb m (off + 6) + 2 ^ 56 * host_readb m (off + 7) := by
  have h0 := host_readb_lt m off
  have h1 := host_readb_lt m (off + 1)
  have h2 := host_readb_lt m (off + 2)
  have h3 := host_readb_lt m (off + 3)
  have h4 := host_readb_lt m (off + 4)
  have h5 := host_readb_lt m (off + 5)
  have h6 := host_readb_lt m (off + 6)
  have h7 := host_readb_lt m (off + 7)
  unfold host_readq
  simp only [Nat.shiftLeft_eq, host_readd_eq, Nat.add_assoc]
  norm_num
  omega

/-! ## Wrapping `size_t` subtraction -/

theorem size_t_sub_of_le (bits a b : Nat) (hb : b ≤ a) (ha : a < 2 ^ bits) :
    size_t_sub bits a b = a - b := by
  unfold size_t_sub
  have h : a + 2 ^ bits - b = (a - b) + 2 ^ bits := by omega
  rw [h, Nat.add_mod_right, Nat.mod_eq_of_lt (by omega)]

theorem size_t_sub_of_lt (bits a b : Nat) (hab : a < b) (hb : b ≤ 2 ^ bits) :
    size_t_sub bits a b = a + 2 ^ bits - b := by
  unfold size_t_sub
  exact Nat.mod_eq_of_lt (by omega)

/-! ## Raw round trips -/

theorem host_readw_writew (m : HostMem) (off v : Nat) (hv : v < 2 ^ 16) :
    host_readw (host_writew m off v) off = v := by
  rw [host_readw_eq]
  simp only [host_readb_writew]
  norm_num
  omega

theorem host_readd_writed (m : HostMem) (off v : Nat) (hv : v < 2 ^ 32) :
    host_readd (host_writed m off v) off = v := by
  rw [host_readd_eq]
  simp only [host_readb_writed]
  norm_num
  omega

theorem host_readq_writeq (m : HostMem) (off v : Nat) (hv : v < 2 ^ 64) :
    host_readq (host_writeq m off v) off = v := by
  rw [host_readq_eq]
  simp only [host_readb_writeq]
  norm_num
  omega

theorem host_read_write (w : Width) (m : HostMem) (off v : Nat)
    (hv : v < 2 ^ (8 * w.bytes)) : host_read w (host_write w m off v) off = v := by
  cases w
  · simp only [host_read, host_write, host_readb_writeb_same]
    exact Nat.mod_eq_of_lt hv
  · exact host_readw_writew m off v hv
  · exact host_readd_writed m off v hv

/-! ## The range check of the physical accessors -/

/-- When the arena is at least as large as the access, the check is `addr + width ≤ MemSize`
for reads. -/
theorem phys_read_eq (bits : Nat) (w : Width) (s : MemState) (a : Nat)
    (hge : w.bytes ≤ s.MemSize) (hsz : s.MemSize < 2 ^ bits) :
    phys_read bits w s a =
      if a + w.bytes ≤ s.MemSize then host_read w s.mem (s.MemBase + a) else w.allOnes := by
  cases w
  · simp only [phys_read, phys_readb, host_read, Width.bytes, Width.allOnes]
    by_cases h : a < s.MemSize
    · rw [if_pos h, if_pos (by omega)]
    · rw [if_neg h, if_neg (by omega)]
  · simp only [Width.bytes] at hge
    simp only [phys_read, phys_readw, host_read, Width.bytes, Width.allOnes,
      size_t_sub_of_le bits s.MemSize 1 (by omega) hsz]
    by_cases h : a < s.MemSize - 1
    · rw [if_pos h, if_pos (by omega)]
    · rw [if_neg h, if_neg (by omega)]
  · simp only [Width.bytes] at hge
    simp only [phys_read, phys_readd, host_read, Width.bytes, Width.allOnes,
      size_t_sub_of_le bits s.MemSize 3 (by omega) hsz]
    by_cases h : a < s.MemSize - 3
    · rw [if_pos h, if_pos (by omega)]
    · rw [if_neg h, if_neg (by omega)]

/-- When the arena is at least as large as the access, the check is `addr + width ≤ MemSize`
for writes. -/
theorem phys_write_eq (bits : Nat) (w : Width) (s : MemState) (a v : Nat)
    (hge : w.bytes ≤ s.MemSize) (hsz : s.MemSize < 2 ^ bits) :
    phys_write bits w s a v =
      if a + w.bytes ≤ s.MemSize then
        { s with mem := host_write w s.mem (s.MemBase + a) v }
      else s := by
  cases w
  · simp only [phys_write, phys_writeb, host_write, Width.bytes]
    by_cases h : a < s.MemSize
    · rw [if_pos h, if_pos (by omega)]
    · rw [if_neg h, if_neg (by omega)]
  · simp only [Width.bytes] at hge
    simp only [phys_write, phys_writew, host_write, Width.bytes,
      size_t_sub_of_le bits s.MemSize 1 (by omega) hsz]
    by_cases h : a < s.MemSize - 1
    · rw [if_pos h, if_pos (by omega)]
    · rw [if_neg h, if_neg (by omega)]
  · simp only [Width.bytes] at hge
    simp only [phys_write, phys_writed, host_write, Width.bytes,
      size_t_sub_of_le bits s.MemSize 3 (by omega) hsz]
    by_cases h : a < s.MemSize - 3
    · rw [if_pos h, if_pos (by omega)]
    · rw [if_neg h, if_neg (by omega)]

theorem Width.bytes_le_four (w : Width) : w.bytes ≤ 4 := by
  cases w <;> simp [Width.bytes]

theorem Width.bytes_pos (w : Width) : 0 < w.bytes := by
  cases w <;> simp [Width.bytes]

/-- A positive multiple of the page size holds at least one access of any width. -/
theorem bytes_le_of_page_multiple (w : Width) (n : Nat) (hpos : 0 < n) (hpage : 4096 ∣ n) :
    w.bytes ≤ n := by
  have h1 := Nat.le_of_dvd hpos hpage
  have h2 := w.bytes_le_four
  omega

/-! ## Claims C1 to C4: the physical accessors -/

/-- C1: round trip of the physical accessors.  For every arena, every width, every address
`a` with `a + width ≤ MemSize` and every value `v` of that width, `phys_write*(a, v)`
followed by the `phys_read*(a)` of the same width returns `v`. -/
theorem phys_write_read_roundtrip (bits : Nat) (s : MemState) (w : Width) (a v : Nat)
    (hsz : s.MemSize < 2 ^ bits) (ha : a + w.bytes ≤ s.MemSize)
    (hv : v < 2 ^ (8 * w.bytes)) :
    phys_read bits w (phys_write bits w s a v) a = v := by
  have hge : w.bytes ≤ s.MemSize := by omega
  rw [phys_write_eq bits w s a v hge hsz, if_pos ha]
  rw [phys_read_eq bits w ⟨s.MemBase, s.MemSize, host_write w s.mem (s.MemBase + a) v⟩ a
    hge hsz, if_pos ha]
  exact host_read_write w s.mem (s.MemBase + a) v hv

theorem phys_write_read_roundtrip_witness :
    (4096 : Nat) < 2 ^ 64 ∧ 4092 + Width.dword.bytes ≤ 4096 ∧
      (0xDEADBEEF : Nat) < 2 ^ (8 * Width.dword.bytes) ∧
      phys_read 64 .dword
        (phys_write 64 .dword ⟨0x10000, 4096, constMem 0⟩ 4092 0xDEADBEEF) 4092
        = 0xDEADBEEF :=
  ⟨by decide, by decide, by decide,
    phys_write_read_roundtrip 64 ⟨0x10000, 4096, constMem 0⟩ .dword 4092 0xDEADBEEF
      (by decide) (by decide) (by decide)⟩

/-- C2: out-of-range reads return the all-ones sentinel.  For an arena whose size is a
positive multiple of 4096 and an address `a` that lies at or beyond the end of the arena, or
below the end with `a + width` beyond it, the read of every width returns `0xFF`, `0xFFFF`
or `0xFFFFFFFF`; the result is the same whatever host memory holds, so no byte is read. -/
theorem phys_read_out_of_range (bits : Nat) (s : MemState) (w : Width) (a : Nat)
    (hpos : 0 < s.MemSize) (hpage : 4096 ∣ s.MemSize) (hsz : s.MemSize < 2 ^ bits)
    (hout : s.MemSize ≤ a ∨ (a < s.MemSize ∧ s.MemSize < a + w.bytes)) :
    phys_read bits w s a = w.allOnes ∧
      ∀ m : HostMem, phys_read bits w { s with mem := m } a = w.allOnes := by
  have hge := bytes_le_of_page_multiple w s.MemSize hpos hpage
  have hw := w.bytes_pos
  have hnot : ¬ a + w.bytes ≤ s.MemSize := by omega
  refine ⟨?_, fun m => ?_⟩
  · rw [phys_read_eq bits w s a hge hsz, if_neg hnot]
  · rw [phys_read_eq bits w ⟨s.MemBase, s.MemSize, m⟩ a hge hsz, if_neg hnot]

theorem phys_read_out_of_range_witness :
    (0 : Nat) < 8192 ∧ 4096 ∣ 8192 ∧ (8192 : Nat) < 2 ^ 64 ∧
      ((8192 : Nat) ≤ 8190 ∨ ((8190 : Nat) < 8192 ∧ 8192 < 8190 + Width.dword.bytes)) ∧
      (phys_read 64 .dword ⟨0x10000, 8192, constMem 0⟩ 8190 = Width.dword.allOnes ∧
        ∀ m : HostMem,
          phys_read 64 .dword { (⟨0x10000, 8192, constMem 0⟩ : MemState) with mem := m } 8190
            = Width.dword.allOnes) :=
  ⟨by decide, by decide, by decide, Or.inr (by decide),
    phys_read_out_of_range 64 ⟨0x10000, 8192, constMem 0⟩ .dword 8190
      (by decide) (by decide) (by decide) (Or.inr (by decide))⟩

/-- C3: out-of-range writes are silent no-ops.  For an arena whose size is a positive
multiple of 4096, every width and value, and an address `a` with `a + width > MemSize`,
`phys_write*(a, v)` returns the state unchanged: no byte of host memory is written, not
even the bytes of the access that lie inside the arena. -/
theorem phys_write_out_of_range (bits : Nat) (s : MemState) (w : Width) (a v : Nat)
    (hpos : 0 < s.MemSize) (hpage : 4096 ∣ s.MemSize) (hsz : s.MemSize < 2 ^ bits)
    (hout : s.MemSize < a + w.bytes) :
    phys_write bits w s a v = s := by
  have hge := bytes_le_of_page_multiple w s.MemSize hpos hpage
  rw [phys_write_eq bits w s a v hge hsz, if_neg (by omega)]

theorem phys_write_out_of_range_witness :
    (0 : Nat) < 4096 ∧ 4096 ∣ 4096 ∧ (4096 : Nat) < 2 ^ 64 ∧
      4096 < 4095 + Width.word.bytes ∧
      phys_write 64 .word ⟨0x10000, 4096, constMem 0⟩ 4095 0xABCD
        = ⟨0x10000, 4096, constMem 0⟩ :=
  ⟨by decide, by decide, by decide, by decide,
    phys_write_out_of_range 64 ⟨0x10000, 4096, constMem 0⟩ .word 4095 0xABCD
      (by decide) (by decide) (by decide) (by decide)⟩

/-- C4 as stated fails: with `MemSize = 0` on a host with a 64-bit `size_t`, `MemSize - 1u`
is `2 ^ 64 - 1`, the check of `phys_readw(0)` passes and the read returns the two bytes at
`MemBase` (here `0x1212`) instead of `0xFFFF`; likewise `phys_writew(0, 0xABCD)` stores
`0xCD` at `MemBase`. -/
theorem phys_tiny_arena_counterexample :
    phys_readw 64 ⟨0x10000, 0, constMem 0x12⟩ 0 = 0x1212 ∧
      phys_readw 64 ⟨0x10000, 0, constMem 0x12⟩ 0 ≠ 0xFFFF ∧
      host_readb (phys_writew 64 ⟨0x10000, 0, constMem 0x12⟩ 0 0xABCD).mem 0x10000 = 0xCD ∧
      phys_writew 64 ⟨0x10000, 0, constMem 0x12⟩ 0 0xABCD ≠ ⟨0x10000, 0, constMem 0x12⟩ := by
  have hsub : size_t_sub 64 0 1 = 2 ^ 64 - 1 := by norm_num [size_t_sub]
  have hr : phys_readw 64 ⟨0x10000, 0, constMem 0x12⟩ 0 = 0x1212 := by
    simp only [phys_readw, hsub]
    norm_num [host_readw_eq, host_readb, constMem, toByte]
  have hw : host_readb (phys_writew 64 ⟨0x10000, 0, constMem 0x12⟩ 0 0xABCD).mem 0x10000
      = 0xCD := by
    simp only [phys_writew, hsub]
    norm_num [host_readb_writew]
  refine ⟨hr, ?_, hw, ?_⟩
  · rw [hr]; decide
  · intro h
    rw [h] at hw
    norm_num [host_readb, constMem, toByte] at hw

/-- C4, amended: for an arena smaller than the access width, the access is out of range
(sentinel on read, nothing written) when `MemSize = width - 1`, where `MemSize - (width-1)`
is `0`.  When `MemSize < width - 1` the subtraction wraps around modulo `2 ^ bits`, and the
access is delegated to the raw accessor at `MemBase + a` for every address `a` with
`a + width ≤ 2 ^ bits + MemSize`. -/
theorem phys_tiny_arena (bits : Nat) (s : MemState) (w : Width) (a v : Nat)
    (hbits : 2 ≤ bits) (htiny : s.MemSize < w.bytes) :
    phys_read bits w s a =
        (if s.MemSize + 1 < w.bytes ∧ a + w.bytes ≤ 2 ^ bits + s.MemSize then
          host_read w s.mem (s.MemBase + a)
         else w.allOnes) ∧
      phys_write bits w s a v =
        (if s.MemSize + 1 < w.bytes ∧ a + w.bytes ≤ 2 ^ bits + s.MemSize then
          { s with mem := host_write w s.mem (s.MemBase + a) v }
         else s) := by
  have h4 : 4 ≤ 2 ^ bits := by
    have := Nat.pow_le_pow_right (show 0 < 2 by decide) hbits
    omega
  cases w
  · simp only [Width.bytes] at htiny
    simp only [phys_read, phys_readb, phys_write, phys_writeb, host_read, host_write,
      Width.bytes, Width.allOnes]
    rw [if_neg (by omega), if_neg (by omega), if_neg (by omega), if_neg (by omega)]
    exact ⟨rfl, rfl⟩
  · simp only [Width.bytes] at htiny
    simp only [phys_read, phys_readw, phys_write, phys_writew, host_read, host_write,
      Width.bytes, Width.allOnes]
    by_cases h1 : s.MemSize = 1
    · have hsub := size_t_sub_of_le bits s.MemSize 1 (by omega) (by omega)
      rw [hsub, if_neg (by omega), if_neg (by omega), if_neg (by omega), if_neg (by omega)]
      exact ⟨rfl, rfl⟩
    · have hsub := size_t_sub_of_lt bits s.MemSize 1 (by omega) (by omega)
      rw [hsub]
      by_cases h : a < s.MemSize + 2 ^ bits - 1
      · rw [if_pos h, if_pos h, if_pos ⟨by omega, by omega⟩, if_pos ⟨by omega, by omega⟩]
        exact ⟨rfl, rfl⟩
      · rw [if_neg h, if_neg h, if_neg (by omega), if_neg (by omega)]
        exact ⟨rfl, rfl⟩
  · simp only [Width.bytes] at htiny
    simp only [phys_read, phys_readd, phys_write, phys_writed, host_read, host_write,
      Width.bytes, Width.allOnes]
    by_cases h1 : s.MemSize = 3
    · have hsub := size_t_sub_of_le bits s.MemSize 3 (by omega) (by omega)
      rw [hsub, if_neg (by omega), if_neg (by omega), if_neg (by omega), if_neg (by omega)]
      exact ⟨rfl, rfl⟩
    · have hsub := size_t_sub_of_lt bits s.MemSize 3 (by omega) (by omega)
      rw [hsub]
      by_cases h : a < s.MemSize + 2 ^ bits - 3
      · rw [if_pos h, if_pos h, if_pos ⟨by omega, by omega⟩, if_pos ⟨by omega, by omega⟩]
        exact ⟨rfl, rfl⟩
      · rw [if_neg h, if_neg h, if_neg (by omega), if_neg (by omega)]
        exact ⟨rfl, rfl⟩

theorem phys_tiny_arena_witness :
    2 ≤ 64 ∧ 0 < Width.word.bytes ∧
      (phys_read 64 .word ⟨0x10000, 0, constMem 0x12⟩ 7 =
          (if 0 + 1 < Width.word.bytes ∧ 7 + Width.word.bytes ≤ 2 ^ 64 + 0 then
            host_read .word (constMem 0x12) (0x10000 + 7)
           else Width.word.allOnes) ∧
        phys_write 64 .word ⟨0x10000, 0, constMem 0x12⟩ 7 0xABCD =
          (if 0 + 1 < Width.word.bytes ∧ 7 + Width.word.bytes ≤ 2 ^ 64 + 0 then
            { (⟨0x10000, 0, constMem 0x12⟩ : MemState) with
              mem := host_write .word (constMem 0x12) (0x10000 + 7) 0xABCD }
           else ⟨0x10000, 0, constMem 0x12⟩)) :=
  ⟨by decide, by decide,
    phys_tiny_arena 64 ⟨0x10000, 0, constMem 0x12⟩ .word 7 0xABCD (by decide) (by decide)⟩

/-! ## Claims C5 to C7: real-mode address conversions -/

/-- C5: `PhysMake` is exact and unmasked.  For 16-bit `seg` and `off`,
`PhysMake(seg, off) = 16*seg + off` as a natural number; in particular
`PhysMake(0x1234, 0x0010) = 0x12350` and `PhysMake(0xFFFF, 0xFFFF) = 0x10FFEF`. -/
theorem PhysMake_exact (seg off : Nat) (hseg : seg < 2 ^ 16) (hoff : off < 2 ^ 16) :
    PhysMake seg off = 16 * seg + off ∧
      PhysMake 0x1234 0x0010 = 0x12350 ∧ PhysMake 0xFFFF 0xFFFF = 0x10FFEF := by
  refine ⟨?_, by decide, by decide⟩
  unfold PhysMake
  simp only [Nat.shiftLeft_eq]
  omega

theorem PhysMake_exact_witness :
    (0xF000 : Nat) < 2 ^ 16 ∧ (0xFFFF : Nat) < 2 ^ 16 ∧
      (PhysMake 0xF000 0xFFFF = 16 * 0xF000 + 0xFFFF ∧
        PhysMake 0x1234 0x0010 = 0x12350 ∧ PhysMake 0xFFFF 0xFFFF = 0x10FFEF) :=
  ⟨by decide, by decide, PhysMake_exact 0xF000 0xFFFF (by decide) (by decide)⟩

/-- C6 as stated fails: `PhysMake(0xFFFF, 0xFFFF) = 0x10FFEF` exceeds `0xFFFFF` by `0xFFF0`,
one more than `0xFFEF`. -/
theorem PhysMake_range_counterexample :
    (0xFFFF : Nat) < 2 ^ 16 ∧ PhysMake 0xFFFF 0xFFFF = 0xFFFFF + 0xFFF0 ∧
      ¬ PhysMake 0xFFFF 0xFFFF ≤ 0xFFFFF + 0xFFEF := by
  decide

/-- C6, amended: for 16-bit `seg` and `off`, `PhysMake(seg, off)` exceeds `0xFFFFF` by at
most `0xFFF0`, i.e. `PhysMake(seg, off) ≤ 0x10FFEF`; the bound is reached at
`0xFFFF:0xFFFF`. -/
theorem PhysMake_range (seg off : Nat) (hseg : seg < 2 ^ 16) (hoff : off < 2 ^ 16) :
    PhysMake seg off ≤ 0xFFFFF + 0xFFF0 ∧ PhysMake 0xFFFF 0xFFFF = 0xFFFFF + 0xFFF0 := by
  refine ⟨?_, by decide⟩
  unfold PhysMake
  simp only [Nat.shiftLeft_eq]
  omega

theorem PhysMake_range_witness :
    (0xFFFF : Nat) < 2 ^ 16 ∧ (0xFFFE : Nat) < 2 ^ 16 ∧
      (PhysMake 0xFFFF 0xFFFE ≤ 0xFFFFF + 0xFFF0 ∧
        PhysMake 0xFFFF 0xFFFF = 0xFFFFF + 0xFFF0) :=
  ⟨by decide, by decide, PhysMake_range 0xFFFF 0xFFFE (by decide) (by decide)⟩

/-- C7: `RealPt` packing round trip.  For 16-bit `seg` and `off`,
`RealMake(seg, off) = (seg << 16) | off`, `RealSeg` and `RealOff` recover `seg` and `off`;
and for every 32-bit `p`, `RealMake(RealSeg(p), RealOff(p)) = p`. -/
theorem RealPt_roundtrip (seg off p : Nat) (hseg : seg < 2 ^ 16) (hoff : off < 2 ^ 16)
    (hp : p < 2 ^ 32) :
    RealMake seg off = (seg <<< 16 ||| off) ∧
      RealSeg (RealMake seg off) = seg ∧
      RealOff (RealMake seg off) = off ∧
      RealMake (RealSeg p) (RealOff p) = p := by
  have hand : ∀ x : Nat, x &&& 0xffff = x % 2 ^ 16 := fun x =>
    Nat.and_pow_two_sub_one_eq_mod x 16
  have hmk : RealMake seg off = 2 ^ 16 * seg + off := by
    unfold RealMake
    simp only [Nat.shiftLeft_eq]
    omega
  refine ⟨?_, ?_, ?_, ?_⟩
  · rw [hmk, Nat.shiftLeft_eq, Nat.mul_comm seg]
    exact Nat.mul_add_lt_is_or hoff seg
  · rw [hmk]
    unfold RealSeg
    simp only [Nat.shiftRight_eq_div_pow]
    omega
  · rw [hmk]
    unfold RealOff
    rw [hand]
    omega
  · unfold RealMake RealSeg RealOff
    rw [hand]
    simp only [Nat.shiftLeft_eq, Nat.shiftRight_eq_div_pow]
    omega

theorem RealPt_roundtrip_witness :
    (0xF000 : Nat) < 2 ^ 16 ∧ (0xFFF0 : Nat) < 2 ^ 16 ∧ (0xC0001234 : Nat) < 2 ^ 32 ∧
      (RealMake 0xF000 0xFFF0 = (0xF000 <<< 16 ||| 0xFFF0) ∧
        RealSeg (RealMake 0xF000 0xFFF0) = 0xF000 ∧
        RealOff (RealMake 0xF000 0xFFF0) = 0xFFF0 ∧
        RealMake (RealSeg 0xC0001234) (RealOff 0xC0001234) = 0xC0001234) :=
  ⟨by decide, by decide, by decide,
    RealPt_roundtrip 0xF000 0xFFF0 0xC0001234 (by decide) (by decide) (by decide)⟩

/-! ## Claims C8 and C10: the raw accessors -/

theorem shiftRight_and_byte (val k : Nat) : (val >>> k) &&& 0xFF = val / 2 ^ k % 256 := by
  rw [Nat.shiftRight_eq_div_pow]
  exact Nat.and_pow_two_sub_one_eq_mod _ 8

/-- C8: little-endian layout of the raw accessors.  `host_writew/d/q(off, val)` stores byte
`(val >> 8*i) & 0xFF` at `off + i` for each `i` below the width, and `host_readw/d/q(off)`
returns the sum over `i` of `buffer[off+i] * 256^i`. -/
theorem host_little_endian_layout (m : HostMem) (off val : Nat) :
    (∀ i : Fin 2, host_readb (host_writew m off val) (off + i.val)
        = (val >>> (8 * i.val)) &&& 0xFF) ∧
      (∀ i : Fin 4, host_readb (host_writed m off val) (off + i.val)
        = (val >>> (8 * i.val)) &&& 0xFF) ∧
      (∀ i : Fin 8, host_readb (host_writeq m off val) (off + i.val)
        = (val >>> (8 * i.val)) &&& 0xFF) ∧
      host_readw m off = ∑ i ∈ Finset.range 2, host_readb m (off + i) * 256 ^ i ∧
      host_readd m off = ∑ i ∈ Finset.range 4, host_readb m (off + i) * 256 ^ i ∧
      host_readq m off = ∑ i ∈ Finset.range 8, host_readb m (off + i) * 256 ^ i := by
  refine ⟨?_, ?_, ?_, ?_, ?_, ?_⟩
  · intro i
    rw [shiftRight_and_byte, host_readb_writew]
    fin_cases i <;> simp
  · intro i
    rw [shiftRight_and_byte, host_readb_writed]
    fin_cases i <;> simp
  · intro i
    rw [shiftRight_and_byte, host_readb_writeq]
    fin_cases i <;> simp
  · rw [host_readw_eq]
    simp only [Finset.sum_range_succ, Finset.sum_range_zero]
    norm_num
    omega
  · rw [host_readd_eq]
    simp only [Finset.sum_range_succ, Finset.sum_range_zero]
    norm_num
    omega
  · rw [host_readq_eq]
    simp only [Finset.sum_range_succ, Finset.sum_range_zero]
    norm_num
    omega

/-- C10: raw accessor round trip.  For every host memory, offset and value of the width,
`host_writeq(off, v)` followed by `host_readq(off)` returns `v`, and likewise for
`host_writew`/`host_readw` and `host_writed`/`host_readd`. -/
theorem host_write_read_roundtrip (m : HostMem) (off vw vd vq : Nat)
    (hw : vw < 2 ^ 16) (hd : vd < 2 ^ 32) (hq : vq < 2 ^ 64) :
    host_readq (host_writeq m off vq) off = vq ∧
      host_readw (host_writew m off vw) off = vw ∧
      host_readd (host_writed m off vd) off = vd :=
  ⟨host_readq_writeq m off vq hq, host_readw_writew m off vw hw,
    host_readd_writed m off vd hd⟩

theorem host_write_read_roundtrip_witness :
    (0xBEEF : Nat) < 2 ^ 16 ∧ (0xDEADBEEF : Nat) < 2 ^ 32 ∧
      (0x0123456789ABCDEF : Nat) < 2 ^ 64 ∧
      (host_readq (host_writeq (constMem 0) 3 0x0123456789ABCDEF) 3 = 0x0123456789ABCDEF ∧
        host_readw (host_writew (constMem 0) 3 0xBEEF) 3 = 0xBEEF ∧
        host_readd (host_writed (constMem 0) 3 0xDEADBEEF) 3 = 0xDEADBEEF) :=
  ⟨by decide, by decide, by decide,
    host_write_read_roundtrip (constMem 0) 3 0xBEEF 0xDEADBEEF 0x0123456789ABCDEF
      (by decide) (by decide) (by decide)⟩

/-! ## The typed branches against the byte-at-a-time branch -/

theorem leBytes_length (n v : Nat) : (leBytes n v).length = n := by
  induction n generalizing v with
  | zero => rfl
  | succ n ih => simp [leBytes, ih]

theorem leBytes_lt (n v : Nat) : ∀ b ∈ leBytes n v, b < 256 := by
  induction n generalizing v with
  | zero => simp [leBytes]
  | succ n ih =>
    intro b hb
    simp only [leBytes, List.mem_cons] at hb
    rcases hb with rfl | hb
    · exact Nat.mod_lt _ (by decide)
    · exact ih _ b hb

/-- Splitting a little-endian value into bytes gives back the bytes. -/
theorem leBytes_ofLE (bs : List Nat) (h : ∀ b ∈ bs, b < 256) :
    leBytes bs.length (ofLE bs) = bs := by
  induction bs with
  | nil => rfl
  | cons b bs ih =>
    have hb : b < 256 := h b (List.mem_cons_self b bs)
    have hbs : ∀ x ∈ bs, x < 256 := fun x hx => h x (List.mem_cons_of_mem b hx)
    have h1 : (b + 256 * ofLE bs) % 256 = b := by omega
    have h2 : (b + 256 * ofLE bs) / 256 = ofLE bs := by omega
    simp only [List.length_cons, ofLE, leBytes, h1, h2, ih hbs]

/-- The bytes of a swapped value are the bytes of the value in reverse order. -/
theorem leBytes_bswap (n x : Nat) : leBytes n (bswap n x) = (leBytes n x).reverse := by
  have hlen : (leBytes n x).reverse.length = n := by
    rw [List.length_reverse, leBytes_length]
  have hlt : ∀ b ∈ (leBytes n x).reverse, b < 256 := fun b hb =>
    leBytes_lt n x b (List.mem_reverse.mp hb)
  have := leBytes_ofLE (leBytes n x).reverse hlt
  rw [hlen] at this
  exact this

theorem loadBytes_length (m : HostMem) (off n : Nat) : (loadBytes m off n).length = n := by
  induction n generalizing off with
  | zero => rfl
  | succ n ih => simp [loadBytes, ih]

theorem loadBytes_lt (m : HostMem) (off n : Nat) : ∀ b ∈ loadBytes m off n, b < 256 := by
  induction n generalizing off with
  | zero => simp [loadBytes]
  | succ n ih =>
    intro b hb
    simp only [loadBytes, List.mem_cons] at hb
    rcases hb with rfl | hb
    · exact host_readb_lt m off
    · exact ih _ b hb

/-- A swapped big-endian load is the little-endian load. -/
theorem bswap_typed_load_big (n : Nat) (m : HostMem) (off : Nat) :
    bswap n (typed_load .big n m off) = typed_load .little n m off := by
  have hlen : (loadBytes m off n).reverse.length = n := by
    rw [List.length_reverse, loadBytes_length]
  have hlt : ∀ b ∈ (loadBytes m off n).reverse, b < 256 := fun b hb =>
    loadBytes_lt m off n b (List.mem_reverse.mp hb)
  have h := leBytes_ofLE (loadBytes m off n).reverse hlt
  rw [hlen] at h
  simp only [bswap, typed_load, h, List.reverse_reverse]

/-- A big-endian store of a swapped value is the little-endian store. -/
theorem typed_store_big_bswap (n : Nat) (m : HostMem) (off val : Nat) :
    typed_store .big n m off (bswap n val) = typed_store .little n m off val := by
  simp only [typed_store, leBytes_bswap, List.reverse_reverse]

theorem letoh_typed_load (e : Endian) (n : Nat) (m : HostMem) (off : Nat) :
    letoh e n (typed_load e n m off) = typed_load .little n m off := by
  cases e
  · rfl
  · exact bswap_typed_load_big n m off

theorem typed_store_letoh (e : Endian) (n : Nat) (m : HostMem) (off val : Nat) :
    typed_store e n m off (letoh e n val) = typed_store .little n m off val := by
  cases e
  · rfl
  · exact typed_store_big_bswap n m off val

/-- Two memories with the same bytes are equal. -/
theorem HostMem_ext (m1 m2 : HostMem) (h : ∀ a, host_readb m1 a = host_readb m2 a) :
    m1 = m2 := by
  funext a
  exact Fin.ext (h a)

theorem host_readb_writeb (m : HostMem) (off val a : Nat) :
    host_readb (host_writeb m off val) a = if a = off then val % 256 else host_readb m a := by
  by_cases h : a = off
  · subst h
    rw [host_readb_writeb_same, if_pos rfl]
  · rw [host_readb_writeb_other m off a val h, if_neg h]

theorem typed_load_little_two (m : HostMem) (off : Nat) :
    typed_load .little 2 m off = host_readw m off := by
  rw [host_readw_eq]
  simp only [typed_load, loadBytes, ofLE]
  omega

theorem typed_load_little_four (m : HostMem) (off : Nat) :
    typed_load .little 4 m off = host_readd m off := by
  rw [host_readd_eq]
  simp only [typed_load, loadBytes, ofLE, Nat.add_assoc]
  norm_num
  omega

theorem typed_load_little_eight (m : HostMem) (off : Nat) :
    typed_load .little 8 m off = host_readq m off := by
  rw [host_readq_eq]
  simp only [typed_load, loadBytes, ofLE, Nat.add_assoc]
  norm_num
  omega

theorem typed_store_little_two (m : HostMem) (off val : Nat) :
    typed_store .little 2 m off val = host_writew m off val := by
  apply HostMem_ext
  intro a
  rw [host_readb_writew]
  simp only [typed_store, leBytes, storeBytes, host_readb_writeb, Nat.add_assoc]
  norm_num
  split_ifs <;> omega

theorem typed_store_little_four (m : HostMem) (off val : Nat) :
    typed_store .little 4 m off val = host_writed m off val := by
  apply HostMem_ext
  intro a
  rw [host_readb_writed]
  simp only [typed_store, leBytes, storeBytes, host_readb_writeb, Nat.add_assoc]
  norm_num
  split_ifs <;> omega

theorem typed_store_little_eight (m : HostMem) (off val : Nat) :
    typed_store .little 8 m off val = host_writeq m off val := by
  apply HostMem_ext
  intro a
  rw [host_readb_writeq]
  simp only [typed_store, leBytes, storeBytes, host_readb_writeb, Nat.add_assoc]
  norm_num
  split_ifs <;> omega

/-! ## Claim C9: the three builds of the raw accessors -/

/-- Every accessor a build defines computes what the byte-at-a-time definition computes. -/
theorem hostAccessors_eq_bytewise (b : HostBuild) (m : HostMem) (off val : Nat) :
    (hostAccessors b).host_readw m off = host_readw m off ∧
      (hostAccessors b).host_readd m off = host_readd m off ∧
      (hostAccessors b).host_writew m off val = host_writew m off val ∧
      (hostAccessors b).host_writed m off val = host_writed m off val ∧
      (hostAccessors b).host_writeq m off val = host_writeq m off val ∧
      ((hostAccessors b).host_readq.map fun f => f m off) =
        (if b = HostBuild.bswap then none else some (host_readq m off)) := by
  cases b with
  | bswap =>
    refine ⟨?_, ?_, ?_, ?_, ?_, ?_⟩
    · show bswap 2 (typed_load .big 2 m off) = host_readw m off
      rw [bswap_typed_load_big, typed_load_little_two]
    · show bswap 4 (typed_load .big 4 m off) = host_readd m off
      rw [bswap_typed_load_big, typed_load_little_four]
    · show typed_store .big 2 m off (bswap 2 val) = host_writew m off val
      rw [typed_store_big_bswap, typed_store_little_two]
    · show typed_store .big 4 m off (bswap 4 val) = host_writed m off val
      rw [typed_store_big_bswap, typed_store_little_four]
    · show typed_store .big 8 m off (bswap 8 val) = host_writeq m off val
      rw [typed_store_big_bswap, typed_store_little_eight]
    · rfl
  | bytewise =>
    exact ⟨rfl, rfl, rfl, rfl, rfl, rfl⟩
  | typed e =>
    refine ⟨?_, ?_, ?_, ?_, ?_, ?_⟩
    · show letoh e 2 (typed_load e 2 m off) = host_readw m off
      rw [letoh_typed_load, typed_load_little_two]
    · show letoh e 4 (typed_load e 4 m off) = host_readd m off
      rw [letoh_typed_load, typed_load_little_four]
    · show typed_store e 2 m off (letoh e 2 val) = host_writew m off val
      rw [typed_store_letoh, typed_store_little_two]
    · show typed_store e 4 m off (letoh e 4 val) = host_writed m off val
      rw [typed_store_letoh, typed_store_little_four]
    · show typed_store e 8 m off (letoh e 8 val) = host_writeq m off val
      rw [typed_store_letoh, typed_store_little_eight]
    · show some (letoh e 8 (typed_load e 8 m off)) = some (host_readq m off)
      rw [letoh_typed_load, typed_load_little_eight]

/-- C9: the builds of the raw accessors compared with the byte-at-a-time branch.  In every
build (`bswap` on a big-endian host, byte-at-a-time, `le*toh`/`htole*` on a host of either
byte order) `host_readw`, `host_readd`, `host_writew`, `host_writed` and `host_writeq` give
the result of the byte-at-a-time definitions, and so does `host_readq` wherever it is
defined; the `bswap` branch alone defines no `host_readq`, so there the 8-byte read of the
claim has nothing to agree with: on the sample bytes `EF CD AB 89 67 45 23 01` the other
two branches read `0x0123456789ABCDEF`. -/
theorem host_builds_agree (b : HostBuild) (e : Endian) (m : HostMem) (off val : Nat) :
    (hostAccessors b).host_readw m off = host_readw m off ∧
      (hostAccessors b).host_readd m off = host_readd m off ∧
      (hostAccessors b).host_writew m off val = host_writew m off val ∧
      (hostAccessors b).host_writed m off val = host_writed m off val ∧
      (hostAccessors b).host_writeq m off val = host_writeq m off val ∧
      ((hostAccessors b).host_readq.map fun f => f m off) =
        (if b = HostBuild.bswap then none else some (host_readq m off)) ∧
      ((hostAccessors .bswap).host_readq.map fun f => f qwordSample 0) = none ∧
      ((hostAccessors .bytewise).host_readq.map fun f => f qwordSample 0)
        = some 0x0123456789ABCDEF ∧
      ((hostAccessors (.typed e)).host_readq.map fun f => f qwordSample 0)
        = some 0x0123456789ABCDEF := by
  obtain ⟨h1, h2, h3, h4, h5, h6⟩ := hostAccessors_eq_bytewise b m off val
  exact ⟨h1, h2, h3, h4, h5, h6, rfl, by decide, by cases e <;> decide⟩

/-! ## Bit masks as arithmetic -/

theorem and_F000 (x : Nat) : x &&& 0xF000 = x / 2 ^ 12 % 2 ^ 4 * 2 ^ 12 := by
  apply Nat.eq_of_testBit_eq
  intro i
  have h : (0xF000 : Nat) = 2 ^ 12 * (2 ^ 4 - 1) := by norm_num
  rw [Nat.testBit_and, h, Nat.mul_comm (x / 2 ^ 12 % 2 ^ 4), Nat.testBit_mul_pow_two,
    Nat.testBit_mul_pow_two, Nat.testBit_two_pow_sub_one, Nat.testBit_mod_two_pow,
    ← Nat.shiftRight_eq_div_pow, Nat.testBit_shiftRight]
  by_cases h12 : 12 ≤ i
  · have h1 : 12 + (i - 12) = i := by omega
    rw [h1]
    cases x.testBit i <;> simp
  · simp [h12]

theorem and_FFFF (x : Nat) : x &&& 0xFFFF = x % 2 ^ 16 :=
  Nat.and_pow_two_sub_one_eq_mod x 16

theorem and_0FFF (x : Nat) : x &&& 0x0FFF = x % 2 ^ 12 :=
  Nat.and_pow_two_sub_one_eq_mod x 12

theorem and_FFFFF (x : Nat) : x &&& 0xFFFFF = x % 2 ^ 20 :=
  Nat.and_pow_two_sub_one_eq_mod x 20

/-! ## The conversions as arithmetic -/

theorem RealSeg_eq (pt : Nat) : RealSeg pt = pt / 2 ^ 16 % 2 ^ 16 := by
  unfold RealSeg
  rw [Nat.shiftRight_eq_div_pow]

theorem RealOff_eq (pt : Nat) : RealOff pt = pt % 2 ^ 16 := by
  unfold RealOff
  rw [and_FFFF]
  omega

theorem Real2Phys_eq (pt : Nat) : Real2Phys pt = 16 * RealSeg pt + RealOff pt := by
  have h1 := RealSeg_eq pt
  have h2 := RealOff_eq pt
  unfold Real2Phys
  simp only [Nat.shiftLeft_eq]
  omega

theorem PhysToReal416_eq (phys : Nat) :
    PhysToReal416 phys = 2 ^ 16 * (phys / 2 ^ 16 % 2 ^ 4 * 2 ^ 12) + phys % 2 ^ 16 := by
  unfold PhysToReal416 RealMake
  rw [and_F000, and_FFFF]
  simp only [Nat.shiftLeft_eq, Nat.shiftRight_eq_div_pow]
  omega

theorem RealSeg_PhysToReal416 (phys : Nat) :
    RealSeg (PhysToReal416 phys) = phys / 2 ^ 16 % 2 ^ 4 * 2 ^ 12 := by
  rw [RealSeg_eq, PhysToReal416_eq]
  omega

theorem RealOff_PhysToReal416 (phys : Nat) :
    RealOff (PhysToReal416 phys) = phys % 2 ^ 16 := by
  rw [RealOff_eq, PhysToReal416_eq]
  omega

theorem Real2Phys_PhysToReal416 (phys : Nat) :
    Real2Phys (PhysToReal416 phys) = phys % 2 ^ 20 := by
  rw [Real2Phys_eq, RealSeg_PhysToReal416, RealOff_PhysToReal416]
  omega

/-- A pointer whose segment has its low 12 bits clear designates an address below 1 MiB. -/
theorem Real2Phys_lt_of_seg416 (r : Nat) (hseg : RealSeg r &&& 0x0FFF = 0) :
    Real2Phys r < 2 ^ 20 := by
  have h1 := RealSeg_eq r
  have h2 := RealOff_eq r
  rw [and_0FFF] at hseg
  rw [Real2Phys_eq]
  omega

/-! ## Claims C11 to C13, C17 and C18: conversions to and from real-mode pointers -/

/-- C11: `PhysToReal416` follows the documented masking.  For every `phys`,
`RealSeg(PhysToReal416(phys)) = (phys >> 4) & 0xF000`,
`RealOff(PhysToReal416(phys)) = phys & 0xFFFF` (so `0xABCDE` becomes `0xA000:0xBCDE`) and
`Real2Phys(PhysToReal416(phys)) = phys & 0xFFFFF`; for every `q < 0x100000` the conversion
is lossless. -/
theorem PhysToReal416_masking (phys q : Nat) (hq : q < 0x100000) :
    RealSeg (PhysToReal416 phys) = (phys >>> 4) &&& 0xF000 ∧
      RealOff (PhysToReal416 phys) = phys &&& 0xFFFF ∧
      Real2Phys (PhysToReal416 phys) = phys &&& 0xFFFFF ∧
      PhysToReal416 0xABCDE = RealMake 0xA000 0xBCDE ∧
      RealSeg (PhysToReal416 0xABCDE) = 0xA000 ∧ RealOff (PhysToReal416 0xABCDE) = 0xBCDE ∧
      Real2Phys (PhysToReal416 q) = q := by
  refine ⟨?_, ?_, ?_, by decide, by decide, by decide, ?_⟩
  · rw [RealSeg_PhysToReal416, and_F000, Nat.shiftRight_eq_div_pow]
    omega
  · rw [RealOff_PhysToReal416, and_FFFF]
  · rw [Real2Phys_PhysToReal416, and_FFFFF]
  · rw [Real2Phys_PhysToReal416]
    omega

theorem PhysToReal416_masking_witness :
    (0xABCDE : Nat) < 0x100000 ∧
      (RealSeg (PhysToReal416 0x12ABCDE) = (0x12ABCDE >>> 4) &&& 0xF000 ∧
        RealOff (PhysToReal416 0x12ABCDE) = 0x12ABCDE &&& 0xFFFF ∧
        Real2Phys (PhysToReal416 0x12ABCDE) = 0x12ABCDE &&& 0xFFFFF ∧
        PhysToReal416 0xABCDE = RealMake 0xA000 0xBCDE ∧
        RealSeg (PhysToReal416 0xABCDE) = 0xA000 ∧ RealOff (PhysToReal416 0xABCDE) = 0xBCDE ∧
        Real2Phys (PhysToReal416 0xABCDE) = 0xABCDE) :=
  ⟨by decide, PhysToReal416_masking 0x12ABCDE 0xABCDE (by decide)⟩

/-- C12 as stated fails: `0x100005` is not representable as a 4:16 pointer (no pointer whose
segment has its low 12 bits clear designates it), and `PhysToReal416(0x100005)` designates
`0x00005`, not `0x100000`, the paragraph boundary below `0x100005`. -/
theorem PhysToReal416_rounding_counterexample :
    (∀ r : Nat, RealSeg r &&& 0x0FFF = 0 → Real2Phys r ≠ 0x100005) ∧
      Real2Phys (PhysToReal416 0x100005) = 0x00005 ∧
      0x100005 / 16 * 16 = 0x100000 ∧
      Real2Phys (PhysToReal416 0x100005) ≠ 0x100005 / 16 * 16 := by
  refine ⟨?_, by decide, by decide, by decide⟩
  intro r hseg h
  have := Real2Phys_lt_of_seg416 r hseg
  omega

/-- C12, amended: for every linear address `phys` that is not representable as a 4:16
pointer, `phys` is at or above `0x100000` and the address designated by
`PhysToReal416(phys)` is `phys` modulo `0x100000`: the bits from bit 20 upwards are dropped
and the low 20 bits are kept, so the offset within the paragraph is that of `phys` and
nothing is rounded. -/
theorem PhysToReal416_lossy (phys : Nat)
    (hnr : ∀ r : Nat, RealSeg r &&& 0x0FFF = 0 → Real2Phys r ≠ phys) :
    0x100000 ≤ phys ∧
      Real2Phys (PhysToReal416 phys) = phys % 0x100000 ∧
      Real2Phys (PhysToReal416 phys) % 16 = phys % 16 := by
  have hge : 0x100000 ≤ phys := by
    by_contra hlt
    have hseg : RealSeg (PhysToReal416 phys) &&& 0x0FFF = 0 := by
      rw [RealSeg_PhysToReal416, and_0FFF]
      omega
    apply hnr (PhysToReal416 phys) hseg
    rw [Real2Phys_PhysToReal416]
    omega
  refine ⟨hge, ?_, ?_⟩
  · rw [Real2Phys_PhysToReal416]
    omega
  · rw [Real2Phys_PhysToReal416]
    omega

theorem PhysToReal416_lossy_witness :
    (∀ r : Nat, RealSeg r &&& 0x0FFF = 0 → Real2Phys r ≠ 0x12ABCDE) ∧
      (0x100000 ≤ 0x12ABCDE ∧
        Real2Phys (PhysToReal416 0x12ABCDE) = 0x12ABCDE % 0x100000 ∧
        Real2Phys (PhysToReal416 0x12ABCDE) % 16 = 0x12ABCDE % 16) :=
  have hnr : ∀ r : Nat, RealSeg r &&& 0x0FFF = 0 → Real2Phys r ≠ 0x12ABCDE := by
    intro r hseg h
    have := Real2Phys_lt_of_seg416 r hseg
    omega
  ⟨hnr, PhysToReal416_lossy 0x12ABCDE hnr⟩

/-- C13: interrupt vector addressing.  For every 8-bit vector number `v`,
`RealVecAddress(v) = 4*v`; the slot lies below `0x400`, is 4-byte aligned, and the 4-byte
slots of two distinct vectors do not overlap. -/
theorem RealVecAddress_slots (v v' : Nat) (hv : v < 2 ^ 8) (hv' : v' < 2 ^ 8)
    (hne : v ≠ v') :
    RealVecAddress v = 4 * v ∧
      RealVecAddress v + 4 ≤ 0x400 ∧
      RealVecAddress v % 4 = 0 ∧
      (RealVecAddress v + 4 ≤ RealVecAddress v' ∨ RealVecAddress v' + 4 ≤ RealVecAddress v) := by
  have h : ∀ x : Nat, x < 2 ^ 8 → RealVecAddress x = 4 * x := by
    intro x hx
    unfold RealVecAddress
    rw [Nat.shiftLeft_eq]
    omega
  rw [h v hv, h v' hv']
  omega

theorem RealVecAddress_slots_witness :
    (0xFF : Nat) < 2 ^ 8 ∧ (0xFE : Nat) < 2 ^ 8 ∧ (0xFF : Nat) ≠ 0xFE ∧
      (RealVecAddress 0xFF = 4 * 0xFF ∧
        RealVecAddress 0xFF + 4 ≤ 0x400 ∧
        RealVecAddress 0xFF % 4 = 0 ∧
        (RealVecAddress 0xFF + 4 ≤ RealVecAddress 0xFE ∨
          RealVecAddress 0xFE + 4 ≤ RealVecAddress 0xFF)) :=
  ⟨by decide, by decide, by decide,
    RealVecAddress_slots 0xFF 0xFE (by decide) (by decide) (by decide)⟩

/-- C17: the two real-mode to linear conversions agree.  For 16-bit `seg` and `off`,
`Real2Phys(RealMake(seg, off)) = PhysMake(seg, off)`; and for every `p`,
`Real2Phys(p) = PhysMake(RealSeg(p), RealOff(p)) = 16*RealSeg(p) + RealOff(p)`. -/
theorem Real2Phys_eq_PhysMake (seg off p : Nat) (hseg : seg < 2 ^ 16) (hoff : off < 2 ^ 16) :
    Real2Phys (RealMake seg off) = PhysMake seg off ∧
      Real2Phys p = PhysMake (RealSeg p) (RealOff p) ∧
      PhysMake (RealSeg p) (RealOff p) = 16 * RealSeg p + RealOff p := by
  have hmk : RealMake seg off = 2 ^ 16 * seg + off := by
    unfold RealMake
    simp only [Nat.shiftLeft_eq]
    omega
  refine ⟨?_, rfl, ?_⟩
  · rw [Real2Phys_eq, RealSeg_eq, RealOff_eq, hmk]
    unfold PhysMake
    simp only [Nat.shiftLeft_eq]
    omega
  · exact Real2Phys_eq p

theorem Real2Phys_eq_PhysMake_witness :
    (0xFFFF : Nat) < 2 ^ 16 ∧ (0xFFFE : Nat) < 2 ^ 16 ∧
      (Real2Phys (RealMake 0xFFFF 0xFFFE) = PhysMake 0xFFFF 0xFFFE ∧
        Real2Phys 0xC0001234 = PhysMake (RealSeg 0xC0001234) (RealOff 0xC0001234) ∧
        PhysMake (RealSeg 0xC0001234) (RealOff 0xC0001234)
          = 16 * RealSeg 0xC0001234 + RealOff 0xC0001234) :=
  ⟨by decide, by decide, Real2Phys_eq_PhysMake 0xFFFF 0xFFFE 0xC0001234 (by decide) (by decide)⟩

/-- C18: `PhysToReal416` yields the canonical 4:16 form.  For `phys < 0x100000`,
`PhysToReal416(phys)` has a segment with its low 12 bits clear and designates `phys`, and
it is the only 32-bit `RealPt` that does; and for every `q`,
`PhysToReal416(Real2Phys(PhysToReal416(q))) = PhysToReal416(q)`. -/
theorem PhysToReal416_canonical (phys q : Nat) (hp : phys < 0x100000) :
    (RealSeg (PhysToReal416 phys) &&& 0x0FFF = 0 ∧ Real2Phys (PhysToReal416 phys) = phys) ∧
      (∀ r : Nat, r < 2 ^ 32 → RealSeg r &&& 0x0FFF = 0 → Real2Phys r = phys →
        r = PhysToReal416 phys) ∧
      PhysToReal416 (Real2Phys (PhysToReal416 q)) = PhysToReal416 q := by
  refine ⟨⟨?_, ?_⟩, ?_, ?_⟩
  · rw [RealSeg_PhysToReal416, and_0FFF]
    omega
  · rw [Real2Phys_PhysToReal416]
    omega
  · intro r hr hseg hphys
    have h1 := RealSeg_eq r
    have h2 := RealOff_eq r
    rw [and_0FFF] at hseg
    rw [Real2Phys_eq] at hphys
    rw [PhysToReal416_eq]
    omega
  · rw [Real2Phys_PhysToReal416, PhysToReal416_eq, PhysToReal416_eq]
    omega

theorem PhysToReal416_canonical_witness :
    (0xABCDE : Nat) < 0x100000 ∧
      ((RealSeg (PhysToReal416 0xABCDE) &&& 0x0FFF = 0 ∧
          Real2Phys (PhysToReal416 0xABCDE) = 0xABCDE) ∧
        (∀ r : Nat, r < 2 ^ 32 → RealSeg r &&& 0x0FFF = 0 → Real2Phys r = 0xABCDE →
          r = PhysToReal416 0xABCDE) ∧
        PhysToReal416 (Real2Phys (PhysToReal416 0x12ABCDE)) = PhysToReal416 0x12ABCDE) :=
  ⟨by decide, PhysToReal416_canonical 0xABCDE 0x12ABCDE (by decide)⟩

/-! ## Claim C16: frame of a physical write -/

/-- A raw store of width `w` at `off` leaves the bytes outside `[off, off + w)` alone. -/
theorem host_readb_host_write_other (w : Width) (m : HostMem) (off v x : Nat)
    (hx : x < off ∨ off + w.bytes ≤ x) :
    host_readb (host_write w m off v) x = host_readb m x := by
  cases w
  · simp only [Width.bytes] at hx
    simp only [host_write]
    rw [host_readb_writeb, if_neg (by omega)]
  · simp only [Width.bytes] at hx
    simp only [host_write]
    rw [host_readb_writew, if_neg (by omega), if_neg (by omega)]
  · simp only [Width.bytes] at hx
    simp only [host_write]
    rw [host_readb_writed, if_neg (by omega), if_neg (by omega), if_neg (by omega),
      if_neg (by omega)]

/-- A raw load of width `w` at `p` depends only on the bytes in `[p, p + w)`. -/
theorem host_read_congr (w : Width) (m1 m2 : HostMem) (p : Nat)
    (h : ∀ i, i < w.bytes → host_readb m1 (p + i) = host_readb m2 (p + i)) :
    host_read w m1 p = host_read w m2 p := by
  cases w
  · simp only [Width.bytes] at h
    simp only [host_read]
    exact h 0 (by omega)
  · simp only [Width.bytes] at h
    simp only [host_read]
    rw [host_readw_eq, host_readw_eq, ← h 1 (by omega)]
    have h0 := h 0 (by omega)
    rw [Nat.add_zero] at h0
    rw [h0]
  · simp only [Width.bytes] at h
    simp only [host_read]
    rw [host_readd_eq, host_readd_eq, ← h 1 (by omega), ← h 2 (by omega), ← h 3 (by omega)]
    have h0 := h 0 (by omega)
    rw [Nat.add_zero] at h0
    rw [h0]

/-- The range check of a physical read looks at `MemSize` only. -/
theorem phys_read_congr (bits : Nat) (w : Width) (s1 s2 : MemState) (a : Nat)
    (hbase : s1.MemBase = s2.MemBase) (hsize : s1.MemSize = s2.MemSize)
    (h : ∀ i, i < w.bytes →
      host_readb s1.mem (s2.MemBase + a + i) = host_readb s2.mem (s2.MemBase + a + i)) :
    phys_read bits w s1 a = phys_read bits w s2 a := by
  have hr := host_read_congr w s1.mem s2.mem (s2.MemBase + a) h
  cases w
  · simp only [phys_read, phys_readb, hbase, hsize]
    simp only [host_read] at hr
    rw [hr]
  · simp only [phys_read, phys_readw, hbase, hsize]
    simp only [host_read] at hr
    rw [hr]
  · simp only [phys_read, phys_readd, hbase, hsize]
    simp only [host_read] at hr
    rw [hr]

/-- A physical write either does nothing or stores at `MemBase + a`. -/
theorem phys_write_cases (bits : Nat) (w : Width) (s : MemState) (a v : Nat) :
    phys_write bits w s a v = s ∨
      phys_write bits w s a v = { s with mem := host_write w s.mem (s.MemBase + a) v } := by
  cases w
  · simp only [phys_write, phys_writeb, host_write]
    split
    · exact Or.inr rfl
    · exact Or.inl rfl
  · simp only [phys_write, phys_writew, host_write]
    split
    · exact Or.inr rfl
    · exact Or.inl rfl
  · simp only [phys_write, phys_writed, host_write]
    split
    · exact Or.inr rfl
    · exact Or.inl rfl

/-- C16: frame of a physical write.  `phys_write*(a, v)` of width `w` leaves `MemSize` and
`MemBase` as they were and changes no byte of host memory outside offsets `a .. a+w-1` of
the arena, so a `phys_read*` of any width over a range disjoint from `[a, a+w)` returns
what it returned before the write.  This holds for every address, in particular for those
with `a + w ≤ MemSize`. -/
theorem phys_write_frame (bits : Nat) (s : MemState) (w w' : Width) (a a' v x : Nat)
    (hx : x < s.MemBase + a ∨ s.MemBase + a + w.bytes ≤ x)
    (hdisj : a' + w'.bytes ≤ a ∨ a + w.bytes ≤ a') :
    (phys_write bits w s a v).MemSize = s.MemSize ∧
      (phys_write bits w s a v).MemBase = s.MemBase ∧
      host_readb (phys_write bits w s a v).mem x = host_readb s.mem x ∧
      phys_read bits w' (phys_write bits w s a v) a' = phys_read bits w' s a' := by
  rcases phys_write_cases bits w s a v with h | h
  · rw [h]
    exact ⟨rfl, rfl, rfl, rfl⟩
  · rw [h]
    refine ⟨rfl, rfl, host_readb_host_write_other w s.mem (s.MemBase + a) v x hx, ?_⟩
    refine phys_read_congr bits w'
      ⟨s.MemBase, s.MemSize, host_write w s.mem (s.MemBase + a) v⟩ s a' rfl rfl ?_
    intro i hi
    exact host_readb_host_write_other w s.mem (s.MemBase + a) v _ (by omega)

theorem phys_write_frame_witness :
    ((0x10000 + 104 : Nat) < 0x10000 + 100 ∨ 0x10000 + 100 + Width.dword.bytes ≤ 0x10000 + 104) ∧
      (98 + Width.word.bytes ≤ 100 ∨ 100 + Width.dword.bytes ≤ 98) ∧
      ((phys_write 64 .dword ⟨0x10000, 4096, constMem 0x12⟩ 100 0xDEADBEEF).MemSize = 4096 ∧
        (phys_write 64 .dword ⟨0x10000, 4096, constMem 0x12⟩ 100 0xDEADBEEF).MemBase
          = 0x10000 ∧
        host_readb (phys_write 64 .dword ⟨0x10000, 4096, constMem 0x12⟩ 100 0xDEADBEEF).mem
            (0x10000 + 104)
          = host_readb (constMem 0x12) (0x10000 + 104) ∧
        phys_read 64 .word (phys_write 64 .dword ⟨0x10000, 4096, constMem 0x12⟩ 100 0xDEADBEEF)
            98
          = phys_read 64 .word ⟨0x10000, 4096, constMem 0x12⟩ 98) :=
  ⟨Or.inr (by decide), Or.inl (by decide),
    phys_write_frame 64 ⟨0x10000, 4096, constMem 0x12⟩ .dword .word 100 98 0xDEADBEEF
      (0x10000 + 104) (Or.inr (by decide)) (Or.inl (by decide))⟩

/-! ## Claim C14: the A20 gate -/

/-- C14: A20 gate aliasing.  After `MEM_A20_Enable(false)` the linear address `0x10FFEF`
resolves to `0x0FFEF` on the wraparound-sensitive path; after `MEM_A20_Enable(true)` it
resolves to `0x10FFEF`, as does every address; `MEM_A20_Enabled()` returns the value last
set and leaves the state as it was. -/
theorem A20_gate_aliasing (g : A20Gate) (e : Bool) (addr : Nat) :
    A20_resolve (MEM_A20_Enable g false) 0x10FFEF = 0x0FFEF ∧
      A20_resolve (MEM_A20_Enable g true) 0x10FFEF = 0x10FFEF ∧
      A20_resolve (MEM_A20_Enable g true) addr = addr ∧
      (MEM_A20_Enabled (MEM_A20_Enable g e)).1 = e ∧
      (MEM_A20_Enabled g).2 = g := by
  refine ⟨?_, ?_, ?_, rfl, rfl⟩
  · have h : (0x10FFEF : Nat) - (0x10FFEF &&& 0x100000) = 0x0FFEF := by decide
    simpa [A20_resolve, MEM_A20_Enable] using h
  · simp [A20_resolve, MEM_A20_Enable]
  · simp [A20_resolve, MEM_A20_Enable]

/-! ## Claim C15: reallocation -/

theorem count_releaseFrames (h k : Nat) (ps : List (Option Nat)) :
    (releaseFrames h k ps).count (some h) = ps.count (some h) - k := by
  induction ps generalizing k with
  | nil => cases k <;> simp [releaseFrames]
  | cons p ps ih =>
    cases k with
    | zero => simp [releaseFrames]
    | succ k =>
      by_cases hp : p = some h
      · subst hp
        simp only [releaseFrames, if_true, List.count_cons_self]
        rw [List.count_cons_of_ne (by simp), ih]
        omega
      · simp only [releaseFrames, if_neg hp]
        rw [List.count_cons_of_ne (Ne.symm hp), List.count_cons_of_ne (Ne.symm hp), ih]

theorem count_claimFrames (h k : Nat) (ps : List (Option Nat)) (hk : k ≤ ps.count none) :
    (claimFrames h k ps).count (some h) = ps.count (some h) + k := by
  induction ps generalizing k with
  | nil =>
    simp only [List.count_nil, Nat.le_zero] at hk
    subst hk
    simp [claimFrames]
  | cons p ps ih =>
    cases k with
    | zero => simp [claimFrames]
    | succ k =>
      by_cases hp : p = none
      · subst hp
        rw [List.count_cons_self] at hk
        simp only [claimFrames, if_true, List.count_cons_self]
        rw [List.count_cons_of_ne (by simp), ih k (by omega)]
        omega
      · rw [List.count_cons_of_ne (Ne.symm hp)] at hk
        simp only [claimFrames, if_neg hp]
        by_cases hp' : p = some h
        · subst hp'
          rw [List.count_cons_self, List.count_cons_self, ih (k + 1) hk]
          omega
        · rw [List.count_cons_of_ne (Ne.symm hp'), List.count_cons_of_ne (Ne.symm hp'),
            ih (k + 1) hk]

theorem count_placeRun_zero (h n : Nat) (ps : List (Option Nat)) (hn : n ≤ ps.length) :
    (placeRun h 0 n ps).count (some h) = n := by
  induction ps generalizing n with
  | nil =>
    simp only [List.length_nil, Nat.le_zero] at hn
    subst hn
    simp [placeRun]
  | cons p ps ih =>
    cases n with
    | zero =>
      simp only [placeRun]
      by_cases hp : p = some h
      · rw [if_pos hp, List.count_cons_of_ne (by simp), ih 0 (Nat.zero_le _)]
      · rw [if_neg hp, List.count_cons_of_ne (Ne.symm hp), ih 0 (Nat.zero_le _)]
    | succ n =>
      simp only [List.length_cons] at hn
      simp only [placeRun, List.count_cons_self]
      rw [ih n (by omega)]

theorem count_placeRun (h i n : Nat) (ps : List (Option Nat)) (hn : i + n ≤ ps.length) :
    (placeRun h i n ps).count (some h) = n := by
  induction i generalizing ps with
  | zero => exact count_placeRun_zero h n ps (by omega)
  | succ i ih =>
    cases ps with
    | nil => simp only [List.length_nil] at hn; omega
    | cons p ps =>
      simp only [List.length_cons] at hn
      simp only [placeRun]
      by_cases hp : p = some h
      · rw [if_pos hp, List.count_cons_of_ne (by simp), ih ps (by omega)]
      · rw [if_neg hp, List.count_cons_of_ne (Ne.symm hp), ih ps (by omega)]

theorem runFits_length (h n : Nat) (ps : List (Option Nat)) (hfit : runFits h n ps = true) :
    n ≤ ps.length := by
  induction ps generalizing n with
  | nil =>
    cases n with
    | zero => exact Nat.le_refl _
    | succ n => simp [runFits] at hfit
  | cons p ps ih =>
    cases n with
    | zero => exact Nat.zero_le _
    | succ n =>
      simp only [runFits, Bool.and_eq_true] at hfit
      have := ih n hfit.2
      simp only [List.length_cons]
      omega

theorem findRun_length (h n i : Nat) (ps : List (Option Nat))
    (hfind : findRun h n ps = some i) : i + n ≤ ps.length := by
  induction ps generalizing i with
  | nil =>
    simp only [findRun] at hfind
    split at hfind
    · simp only [Option.some.injEq] at hfind
      subst hfind
      simp only [List.length_nil]
      omega
    · exact absurd hfind (by simp)
  | cons p ps ih =>
    simp only [findRun] at hfind
    split at hfind
    · rename_i hfit
      simp only [Option.some.injEq] at hfind
      subst hfind
      have := runFits_length h n (p :: ps) hfit
      omega
    · cases hrec : findRun h n ps with
      | none => rw [hrec] at hfind; exact absurd hfind (by simp)
      | some j =>
        rw [hrec] at hfind
        simp only [Option.map_some', Option.some.injEq] at hfind
        have := ih j hrec
        simp only [List.length_cons]
        omega

theorem count_none_releaseFrames (h k : Nat) (ps : List (Option Nat))
    (hk : k ≤ ps.count (some h)) :
    (releaseFrames h k ps).count none = ps.count none + k := by
  induction ps generalizing k with
  | nil =>
    simp only [List.count_nil, Nat.le_zero] at hk
    subst hk
    simp [releaseFrames]
  | cons p ps ih =>
    cases k with
    | zero => simp [releaseFrames]
    | succ k =>
      by_cases hp : p = some h
      · subst hp
        rw [List.count_cons_self] at hk
        simp only [releaseFrames, if_true, List.count_cons_self]
        rw [List.count_cons_of_ne (by simp), ih k (by omega)]
        omega
      · rw [List.count_cons_of_ne (Ne.symm hp)] at hk
        simp only [releaseFrames, if_neg hp]
        by_cases hp' : p = none
        · subst hp'
          rw [List.count_cons_self, List.count_cons_self, ih (k + 1) hk]
          omega
        · rw [List.count_cons_of_ne (Ne.symm hp'), List.count_cons_of_ne (Ne.symm hp'),
            ih (k + 1) hk]

/-- What `MEM_ReAllocatePages` returns, case by case: failure exactly for a handle that is
not live or a growth beyond the free frames, with handle and state returned as they were;
otherwise success, the same handle, the same live handles, and `pages` frames owned. -/
theorem MEM_ReAllocatePages_spec (A : PageAllocator) (h n : Nat) (sequence : Bool) :
    (((MEM_ReAllocatePages A h n sequence).1 = false ∧
          (h ∉ A.live ∨ A.owner.count (some h) + MEM_FreeTotal A < n) ∧
          (MEM_ReAllocatePages A h n sequence).2 = (h, A)) ∨
        ((MEM_ReAllocatePages A h n sequence).1 = true ∧
          (h ∈ A.live ∧ n ≤ A.owner.count (some h) + MEM_FreeTotal A) ∧
          (MEM_ReAllocatePages A h n sequence).2.1 = h ∧
          (MEM_ReAllocatePages A h n sequence).2.2.live = A.live ∧
          (MEM_ReAllocatePages A h n sequence).2.2.owner.count (some h) = n)) := by
  unfold MEM_ReAllocatePages
  simp only []
  by_cases hlive : h ∈ A.live
  · rw [if_pos hlive]
    by_cases hle : n ≤ A.owner.count (some h)
    · rw [if_pos hle]
      refine Or.inr ⟨rfl, ⟨hlive, by omega⟩, rfl, rfl, ?_⟩
      show ((releaseFrames h _ A.owner.reverse).reverse).count (some h) = n
      rw [List.count_reverse, count_releaseFrames, List.count_reverse]
      omega
    · rw [if_neg hle]
      by_cases hfree : n - A.owner.count (some h) ≤ MEM_FreeTotal A
      · rw [if_pos hfree]
        have hclaim : (claimFrames h (n - A.owner.count (some h)) A.owner).count (some h)
            = n := by
          simp only [MEM_FreeTotal] at hfree
          rw [count_claimFrames h _ A.owner hfree]
          omega
        cases sequence with
        | true =>
          rw [if_pos rfl]
          cases hrun : findRun h n A.owner with
          | none => exact Or.inr ⟨rfl, ⟨hlive, by omega⟩, rfl, rfl, hclaim⟩
          | some i =>
            exact Or.inr ⟨rfl, ⟨hlive, by omega⟩, rfl, rfl,
              count_placeRun h i n A.owner (findRun_length h n i A.owner hrun)⟩
        | false =>
          rw [if_neg Bool.false_ne_true]
          exact Or.inr ⟨rfl, ⟨hlive, by omega⟩, rfl, rfl, hclaim⟩
      · rw [if_neg hfree]
        exact Or.inl ⟨rfl, Or.inr (by omega), rfl⟩
  · rw [if_neg hlive]
    exact Or.inl ⟨rfl, Or.inl hlive, rfl⟩

/-- After a release the handle is unknown: the query is an error, not zero, and a second
release is an error. -/
theorem MEM_AllocatedPages_released (A A' : PageAllocator) (h : Nat)
    (hrel : MEM_ReleasePages A h = some A') :
    MEM_AllocatedPages A' h = none ∧ MEM_ReleasePages A' h = none ∧
      (MEM_ReAllocatePages A' h 1 false).1 = false := by
  unfold MEM_ReleasePages at hrel
  split at hrel
  · simp only [Option.some.injEq] at hrel
    subst hrel
    have hnot : h ∉ List.filter (fun x => decide (x ≠ h)) A.live := by
      simp [List.mem_filter]
    refine ⟨?_, ?_, ?_⟩
    · simp only [MEM_AllocatedPages, if_neg hnot]
    · simp only [MEM_ReleasePages, if_neg hnot]
    · simp only [MEM_ReAllocatePages, if_neg hnot]
  · exact absurd hrel (by simp)

/-- Shrinking a live handle and growing it back to its original page count succeeds, with
either value of `sequence` in either call. -/
theorem MEM_ReAllocatePages_shrink_regrow (A : PageAllocator) (h n : Nat) (s1 s2 : Bool)
    (hlive : h ∈ A.live) (hn : n ≤ A.owner.count (some h)) :
    (MEM_ReAllocatePages A h n s1).1 = true ∧
      (MEM_ReAllocatePages (MEM_ReAllocatePages A h n s1).2.2 h
        (A.owner.count (some h)) s2).1 = true ∧
      MEM_AllocatedPages (MEM_ReAllocatePages (MEM_ReAllocatePages A h n s1).2.2 h
        (A.owner.count (some h)) s2).2.2 h = some (A.owner.count (some h)) := by
  have hfree1 : MEM_FreeTotal (MEM_ReAllocatePages A h n s1).2.2
      = MEM_FreeTotal A + (A.owner.count (some h) - n) := by
    simp only [MEM_ReAllocatePages, if_pos hlive, if_pos hn, MEM_FreeTotal]
    rw [List.count_reverse, count_none_releaseFrames h _ _ (by rw [List.count_reverse]; omega),
      List.count_reverse]
  rcases MEM_ReAllocatePages_spec A h n s1 with ⟨_, hbad, _⟩ | ⟨hok1, _, _, hlive1, hcount1⟩
  · rcases hbad with hbad | hbad
    · exact absurd hlive hbad
    · omega
  · refine ⟨hok1, ?_⟩
    rcases MEM_ReAllocatePages_spec (MEM_ReAllocatePages A h n s1).2.2 h
        (A.owner.count (some h)) s2 with ⟨_, hbad, _⟩ | ⟨hok2, _, _, hlive2, hcount2⟩
    · rcases hbad with hbad | hbad
      · rw [hlive1] at hbad
        exact absurd hlive hbad
      · rw [hcount1, hfree1] at hbad
        omega
    · refine ⟨hok2, ?_⟩
      have hmem : h ∈ (MEM_ReAllocatePages (MEM_ReAllocatePages A h n s1).2.2 h
          (A.owner.count (some h)) s2).2.2.live := by
        rw [hlive2, hlive1]
        exact hlive
      simp only [MEM_AllocatedPages, if_pos hmem, hcount2]

theorem count_other_releaseFrames (h h' k : Nat) (ps : List (Option Nat)) (hne : h' ≠ h) :
    (releaseFrames h k ps).count (some h') = ps.count (some h') := by
  induction ps generalizing k with
  | nil => cases k <;> simp [releaseFrames]
  | cons p ps ih =>
    cases k with
    | zero => simp [releaseFrames]
    | succ k =>
      by_cases hp : p = some h
      · subst hp
        simp only [releaseFrames, if_true]
        rw [List.count_cons_of_ne (by simp), List.count_cons_of_ne (by simpa using hne), ih]
      · simp only [releaseFrames, if_neg hp]
        by_cases hp' : p = some h'
        · subst hp'
          rw [List.count_cons_self, List.count_cons_self, ih]
        · rw [List.count_cons_of_ne (Ne.symm hp'), List.count_cons_of_ne (Ne.symm hp'), ih]

theorem count_other_claimFrames (h h' k : Nat) (ps : List (Option Nat)) (hne : h' ≠ h) :
    (claimFrames h k ps).count (some h') = ps.count (some h') := by
  induction ps generalizing k with
  | nil => cases k <;> simp [claimFrames]
  | cons p ps ih =>
    cases k with
    | zero => simp [claimFrames]
    | succ k =>
      by_cases hp : p = none
      · subst hp
        simp only [claimFrames, if_true]
        rw [List.count_cons_of_ne (by simpa using hne), List.count_cons_of_ne (by simp), ih]
      · simp only [claimFrames, if_neg hp]
        by_cases hp' : p = some h'
        · subst hp'
          rw [List.count_cons_self, List.count_cons_self, ih]
        · rw [List.count_cons_of_ne (Ne.symm hp'), List.count_cons_of_ne (Ne.symm hp'), ih]

theorem count_other_cons_freed (h h' : Nat) (p : Option Nat) (l l' : List (Option Nat))
    (hne : h' ≠ h) (hl : l'.count (some h') = l.count (some h')) :
    ((if p = some h then none else p) :: l').count (some h') = (p :: l).count (some h') := by
  by_cases hp : p = some h
  · subst hp
    rw [if_pos rfl, List.count_cons_of_ne (by simp), List.count_cons_of_ne (by simpa using hne),
      hl]
  · rw [if_neg hp]
    by_cases hp' : p = some h'
    · subst hp'
      rw [List.count_cons_self, List.count_cons_self, hl]
    · rw [List.count_cons_of_ne (Ne.symm hp'), List.count_cons_of_ne (Ne.symm hp'), hl]

theorem count_other_placeRun_zero (h h' n : Nat) (ps : List (Option Nat)) (hne : h' ≠ h)
    (hfit : runFits h n ps = true) :
    (placeRun h 0 n ps).count (some h') = ps.count (some h') := by
  induction ps generalizing n with
  | nil => simp [placeRun]
  | cons p ps ih =>
    cases n with
    | zero =>
      simp only [placeRun]
      exact count_other_cons_freed h h' p ps _ hne (ih 0 rfl)
    | succ n =>
      simp only [runFits, Bool.and_eq_true, decide_eq_true_eq] at hfit
      simp only [placeRun]
      rw [List.count_cons_of_ne (by simpa using hne), ih n hfit.2]
      rcases hfit.1 with hp | hp
      · subst hp
        rw [List.count_cons_of_ne (by simp)]
      · subst hp
        rw [List.count_cons_of_ne (by simpa using hne)]

theorem count_other_placeRun (h h' n i : Nat) (ps : List (Option Nat)) (hne : h' ≠ h)
    (hfind : findRun h n ps = some i) :
    (placeRun h i n ps).count (some h') = ps.count (some h') := by
  induction ps generalizing i with
  | nil => simp [placeRun]
  | cons p ps ih =>
    simp only [findRun] at hfind
    split at hfind
    · rename_i hfit
      simp only [Option.some.injEq] at hfind
      subst hfind
      exact count_other_placeRun_zero h h' n (p :: ps) hne hfit
    · cases hrec : findRun h n ps with
      | none => rw [hrec] at hfind; exact absurd hfind (by simp)
      | some j =>
        rw [hrec] at hfind
        simp only [Option.map_some', Option.some.injEq] at hfind
        subst hfind
        simp only [placeRun]
        exact count_other_cons_freed h h' p ps _ hne (ih j hrec)

/-- Reallocating one handle leaves the number of frames of every other handle as it was,
whatever the outcome. -/
theorem MEM_ReAllocatePages_others (A : PageAllocator) (h h' n : Nat) (sequence : Bool)
    (hne : h' ≠ h) :
    (MEM_ReAllocatePages A h n sequence).2.2.owner.count (some h')
      = A.owner.count (some h') := by
  unfold MEM_ReAllocatePages
  simp only []
  split
  · split
    · show ((releaseFrames h _ A.owner.reverse).reverse).count (some h') = _
      rw [List.count_reverse, count_other_releaseFrames h h' _ _ hne, List.count_reverse]
    · split
      · cases sequence with
        | true =>
          rw [if_pos rfl]
          cases hrun : findRun h n A.owner with
          | none => exact count_other_claimFrames h h' _ A.owner hne
          | some i => exact count_other_placeRun h h' n i A.owner hne hrun
        | false =>
          rw [if_neg Bool.false_ne_true]
          exact count_other_claimFrames h h' _ A.owner hne
      · rfl
  · rfl

theorem RealVecAddress_eq (v : Nat) (hv : v < 2 ^ 8) : RealVecAddress v = 4 * v := by
  unfold RealVecAddress
  rw [Nat.shiftLeft_eq]
  omega

theorem flatModel_plainStore : PlainStore flatModel := by
  refine ⟨fun _ _ => rfl, ?_, ?_⟩
  · intro s a v hv
    exact host_readd_writed s a v hv
  · intro s a b v hab
    show host_read .dword (host_write .dword s a v) b = host_read .dword s b
    apply host_read_congr
    intro i hi
    simp only [Width.bytes] at hi
    exact host_readb_host_write_other .dword s a v (b + i) (by simp only [Width.bytes]; omega)

/-- C19: vector install with old-value capture.  Over any implementation of
`mem_readd`/`mem_writed`, `RealSetVec(v, pt, old)` sets `old` to what `mem_readd` returns at
`4*v` and then calls `mem_writed(4*v, pt)` on the state the read left; the recorded calls
are exactly that read and that write.  When the implementation is a plain store,
`RealGetVec(v)` afterwards returns `pt` and every other vector reads as before. -/
theorem RealSetVec_old_capture {σ : Type} (M : MemModel σ) (s : σ) (f : Nat → Nat)
    (vec vec' pt : Nat) (hv : vec < 2 ^ 8) (hv' : vec' < 2 ^ 8) (hne : vec' ≠ vec)
    (hpt : pt < 2 ^ 32) :
    RealSetVecOld M s vec pt =
        ((M.mem_readd s (4 * vec)).1, M.mem_writed (M.mem_readd s (4 * vec)).2 (4 * vec) pt) ∧
      RealSetVecOld (traceModel f) [] vec pt =
        (f (4 * vec), [MemAccess.readd (4 * vec), MemAccess.writed (4 * vec) pt]) ∧
      (PlainStore M →
        (RealGetVec M (RealSetVecOld M s vec pt).2 vec).1 = pt ∧
          (RealGetVec M (RealSetVecOld M s vec pt).2 vec').1 = (RealGetVec M s vec').1) := by
  have ha := RealVecAddress_eq vec hv
  have ha' := RealVecAddress_eq vec' hv'
  refine ⟨?_, ?_, ?_⟩
  · simp only [RealSetVecOld, ha]
  · simp only [RealSetVecOld, ha, traceModel, List.nil_append, List.singleton_append]
  · rintro ⟨hread, hsame, hother⟩
    simp only [RealSetVecOld, RealGetVec, ha, ha', hread]
    exact ⟨hsame s (4 * vec) pt hpt, hother s (4 * vec) (4 * vec') pt (by omega)⟩

theorem RealSetVec_old_capture_witness :
    (0x21 : Nat) < 2 ^ 8 ∧ (0x22 : Nat) < 2 ^ 8 ∧ (0x22 : Nat) ≠ 0x21 ∧
      (0xF000FF53 : Nat) < 2 ^ 32 ∧ PlainStore flatModel ∧
      (RealSetVecOld flatModel (constMem 0x12) 0x21 0xF000FF53
          = ((flatModel.mem_readd (constMem 0x12) (4 * 0x21)).1,
              flatModel.mem_writed (flatModel.mem_readd (constMem 0x12) (4 * 0x21)).2
                (4 * 0x21) 0xF000FF53) ∧
        RealSetVecOld (traceModel fun _ => 0) [] 0x21 0xF000FF53
          = (0, [MemAccess.readd (4 * 0x21), MemAccess.writed (4 * 0x21) 0xF000FF53]) ∧
        (PlainStore flatModel →
          (RealGetVec flatModel
              (RealSetVecOld flatModel (constMem 0x12) 0x21 0xF000FF53).2 0x21).1
            = 0xF000FF53 ∧
          (RealGetVec flatModel
              (RealSetVecOld flatModel (constMem 0x12) 0x21 0xF000FF53).2 0x22).1
            = (RealGetVec flatModel (constMem 0x12) 0x22).1)) :=
  ⟨by decide, by decide, by decide, by decide, flatModel_plainStore,
    RealSetVec_old_capture flatModel (constMem 0x12) (fun _ => 0) 0x21 0x22 0xF000FF53
      (by decide) (by decide) (by decide) (by decide)⟩

end DosboxMem
